import Mathlib

/-
Verification of the js-properties library (src/properties.ts): a line-oriented
Java .properties parser with a character-level tokenizer, escape codec, and
in-place line-array mutation.  Strings are modelled as lists of unicode scalar
characters; the tokenizer generator is modelled as a fold producing the list of
yielded entries; mutation is modelled functionally.
-/

namespace Props

abbrev Str := List Char

def strOf (s : String) : Str := s.toList

structure Properties where
  lines : List Str
deriving DecidableEq, Repr

def empty : Properties := ⟨[]⟩

/-- Splits on CRLF, CR or LF, mirroring contents.split of the regex in parse. -/
def splitLinesGo : Str → Str → List Str
  | acc, [] => [acc.reverse]
  | acc, c :: rest =>
    if c = '\r' then
      match rest with
      | d :: rest2 =>
        if d = '\n' then acc.reverse :: splitLinesGo [] rest2
        else acc.reverse :: splitLinesGo [] (d :: rest2)
      | [] => acc.reverse :: [[]]
    else if c = '\n' then acc.reverse :: splitLinesGo [] rest
    else splitLinesGo (c :: acc) rest

def splitLines (s : Str) : List Str := splitLinesGo [] s

/-- The trailing-line normalization done by parse: drop the last line when it
is empty. -/
def popLastEmpty (ls : List Str) : List Str :=
  if ls.getLast? = some [] then ls.dropLast else ls

def parse (contents : Str) : Properties := ⟨popLastEmpty (splitLines contents)⟩

def dropLeadingEmpties : List Str → List Str
  | [] => []
  | [l] => [l]
  | [] :: l2 :: ls => dropLeadingEmpties (l2 :: ls)
  | l1 :: l2 :: ls => l1 :: l2 :: ls

def joinNl : List Str → Str
  | [] => []
  | [l] => l
  | l :: ls => l ++ '\n' :: joinNl ls

/-- The trailing-newline normalization done by stringify: append an empty
line when the list is nonempty and its last line is not empty. -/
def padLast (ls : List Str) : List Str :=
  if ls ≠ [] ∧ ls.getLast? ≠ some [] then ls ++ [[]] else ls

def stringify (config : Properties) : Str :=
  joinNl (padLast (dropLeadingEmpties config.lines))

inductive PState
  | start
  | comment
  | key
  | separator
  | value
deriving DecidableEq, Repr

structure TkState where
  state : PState
  start : Int
  key : Str
  sep : Str
  value : Str
  skipSpace : Bool
  escapedNext : Bool
deriving DecidableEq, Repr

def initState : TkState := ⟨PState.start, -1, [], [], [], true, false⟩

structure Entry where
  start : Int
  len : Int
  sep : Str
  key : Str
  value : Str
deriving DecidableEq, Repr

def unescapeChar (c : Char) : Char :=
  if c = 'r' then '\r'
  else if c = 't' then '\t'
  else if c = 'n' then '\n'
  else if c = 'f' then '\x0c'
  else c

/-- START block of the tokenizer loop. -/
def stepStartBlk (line : Int) (c : Char) : TkState → TkState
  | ⟨PState.start, _, k, sp, v, sk, e⟩ =>
    if c = '#' ∨ c = '!' then ⟨PState.comment, line, k, sp, v, sk, e⟩
    else ⟨PState.key, line, k, sp, v, sk, e⟩
  | st => st

/-- KEY block of the tokenizer loop. -/
def stepKeyBlk (c : Char) : TkState → TkState
  | ⟨PState.key, sa, k, sp, v, sk, e⟩ =>
    if c = ' ' ∨ c = '=' ∨ c = ':' then
      (if e then ⟨PState.key, sa, k ++ [c], sp, v, sk, false⟩
       else ⟨PState.separator, sa, k, sp, v, sk, e⟩)
    else if c = '\\' then
      (if e then ⟨PState.key, sa, k ++ [c], sp, v, sk, false⟩
       else ⟨PState.key, sa, k, sp, v, sk, true⟩)
    else ⟨PState.key, sa, k ++ [if e then unescapeChar c else c], sp, v, sk, false⟩
  | st => st

/-- SEPARATOR block of the tokenizer loop. -/
def stepSepBlk (c : Char) : TkState → TkState
  | ⟨PState.separator, sa, k, sp, v, sk, e⟩ =>
    if c = ' ' then ⟨PState.separator, sa, k, sp ++ [c], v, sk, e⟩
    else if c = '=' ∨ c = ':' then
      (if sp.any (fun x => decide (x = '=' ∨ x = ':')) then ⟨PState.value, sa, k, sp, v, sk, e⟩
       else ⟨PState.separator, sa, k, sp ++ [c], v, sk, e⟩)
    else ⟨PState.value, sa, k, sp, v, sk, e⟩
  | st => st

/-- VALUE block of the tokenizer loop. -/
def stepValBlk (c : Char) : TkState → TkState
  | ⟨PState.value, sa, k, sp, v, sk, e⟩ =>
    if c = '\\' then
      (if e then ⟨PState.value, sa, k, sp, v ++ [c], sk, false⟩
       else ⟨PState.value, sa, k, sp, v, sk, true⟩)
    else ⟨PState.value, sa, k, sp, v ++ [if e then unescapeChar c else c], sk, false⟩
  | st => st

/-- One ordinary character of a line (never the synthetic EOL marker): the
space-skipping check, then the START, COMMENT, KEY, SEPARATOR and VALUE
blocks in source order, with the fall-through behavior of the source's
sequential if statements. -/
def stepCh (line : Int) (st : TkState) (c : Char) : TkState :=
  if st.skipSpace ∧ c = ' ' then st
  else
    let s2 := stepStartBlk line c ⟨st.state, st.start, st.key, st.sep, st.value, false, st.escapedNext⟩
    if s2.state = PState.comment then s2
    else stepValBlk c (stepSepBlk c (stepKeyBlk c s2))

/-- The synthetic EOL marker at the end of a line. -/
def stepEol (line : Int) : TkState → TkState × Option Entry
  | ⟨PState.start, sa, k, sp, v, _, e⟩ => (⟨PState.start, sa, k, sp, v, false, e⟩, none)
  | ⟨PState.comment, _, _, _, _, _, _⟩ => (initState, none)
  | ⟨PState.key, sa, k, sp, v, _, e⟩ =>
    if e then (⟨PState.key, sa, k, sp, v, true, false⟩, none)
    else (initState, some ⟨sa, line - sa + 1, sp, k, v⟩)
  | ⟨PState.separator, sa, k, sp, v, _, _⟩ =>
    (initState, some ⟨sa, line - sa + 1, sp, k, v⟩)
  | ⟨PState.value, sa, k, sp, v, _, e⟩ =>
    if e then (⟨PState.value, sa, k, sp, v, true, false⟩, none)
    else (initState, some ⟨sa, line - sa + 1, sp, k, v⟩)

def runChars (line : Int) (st : TkState) (cs : Str) : TkState := cs.foldl (stepCh line) st

def runLine (line : Int) (st : TkState) (l : Str) : TkState × Option Entry :=
  stepEol line (runChars line st l)

def runLinesGo (i : Int) (st : TkState) : List Str → TkState × List Entry
  | [] => (st, [])
  | l :: ls =>
    let r := runLine i st l
    let rest := runLinesGo (i + 1) r.1 ls
    (rest.1, r.2.toList ++ rest.2)

def listPairs (lines : List Str) : List Entry := (runLinesGo 0 initState lines).2

def list (config : Properties) : List (Str × Str) :=
  (listPairs config.lines).map (fun e => (e.key, e.value))

structure FindResult where
  start : Int
  len : Int
  sep : Str
  value : Option Str
deriving DecidableEq, Repr

def findValueGo (k : Str) : Str → List Entry → FindResult
  | sep, [] => ⟨-1, 0, sep, none⟩
  | sep, e :: es =>
    let sep2 := if e.sep ≠ [] then e.sep else sep
    if e.key = k then ⟨e.start, e.len, e.sep, some e.value⟩
    else findValueGo k sep2 es

def findValue (lines : List Str) (k : Str) : FindResult :=
  findValueGo k ['='] (listPairs lines)

def get (config : Properties) (k : Str) : Option Str := (findValue config.lines k).value

def toObject (config : Properties) : Str → Option Str :=
  (listPairs config.lines).foldl
    (fun m e => fun q => if q = e.key then some e.value else m q) (fun _ => none)

def toMap (config : Properties) : Str → Option Str :=
  (listPairs config.lines).foldl
    (fun m e => fun q => if q = e.key then some e.value else m q) (fun _ => none)

def hex4 (n : Nat) : Str :=
  let ds := Nat.toDigits 16 n
  List.replicate (4 - ds.length) '0' ++ ds

def escChar (escapeSpace escapeUnicode first : Bool) (c : Char) : Str :=
  if c = ' ' then (if escapeSpace ∨ first then ['\\', ' '] else [' '])
  else if c = '\\' then ['\\', '\\']
  else if c = '\x0c' then ['\\', 'f']
  else if c = '\n' then ['\\', 'n']
  else if c = '\r' then ['\\', 'r']
  else if c = '\t' then ['\\', 't']
  else if c = '=' ∨ c = ':' ∨ c = '#' ∨ c = '!' then ['\\', c]
  else if escapeUnicode ∧ (c.toNat < 0x20 ∨ c.toNat > 0x7e) then '\\' :: 'u' :: hex4 c.toNat
  else [c]

def escGo (escapeSpace escapeUnicode : Bool) : Bool → Str → Str
  | _, [] => []
  | first, c :: rest => escChar escapeSpace escapeUnicode first c ++ escGo escapeSpace escapeUnicode false rest

def escape (s : Str) (escapeSpace escapeUnicode : Bool) : Str := escGo escapeSpace escapeUnicode true s

def escapeKey (k : Str) : Str := escape k true true

def escapeValue (v : Str) : Str := escape v false true

def isLineTerm (c : Char) : Bool :=
  c == '\n' || c == '\r' || c == '\u2028' || c == '\u2029'

def unescape : Str → Str
  | [] => []
  | [c] => [c]
  | a :: b :: rest =>
    if a = '\\' then
      if isLineTerm b then a :: unescape (b :: rest)
      else unescapeChar b :: unescape rest
    else a :: unescape (b :: rest)

def splice (ls : List Str) (s len : Nat) (items : List Str) : List Str :=
  ls.take s ++ items ++ ls.drop (s + len)

def set (config : Properties) (k : Str) (v : Option Str) : Properties :=
  let r := findValue config.lines k
  let items := match v with
    | some s => [escapeKey k ++ (if r.sep = [] then ['='] else r.sep) ++ escapeValue s]
    | none => []
  if 0 ≤ r.start ∧ 0 < r.len then ⟨splice config.lines r.start.toNat r.len.toNat items⟩
  else ⟨config.lines ++ items⟩

def remove (config : Properties) (k : Str) : Properties := set config k none

/-! ### Helper lemmas about unescape -/

theorem unescape_cons_ne {c : Char} (rest : Str) (h : c ≠ '\\') :
    unescape (c :: rest) = c :: unescape rest := by
  cases rest with
  | nil => rfl
  | cons b r => simp [unescape, h]

theorem unescape_esc {x : Char} (rest : Str) (h : isLineTerm x = false) :
    unescape ('\\' :: x :: rest) = unescapeChar x :: unescape rest := by
  simp [unescape, h]

theorem unescape_esc_term {x : Char} (rest : Str) (h : isLineTerm x = true) :
    unescape ('\\' :: x :: rest) = '\\' :: unescape (x :: rest) := by
  simp [unescape, h]

/-! ### Read-path lemmas: findValue returns the first matching entry,
    toObject and toMap keep the last one -/

theorem findValueGo_value (k : Str) (es : List Entry) :
    ∀ sep0 : Str, (findValueGo k sep0 es).value
      = (es.find? (fun e => decide (e.key = k))).map Entry.value := by
  induction es with
  | nil => intro sep0; rfl
  | cons e es ih =>
    intro sep0
    by_cases h : e.key = k
    · simp [findValueGo, h, List.find?_cons_of_pos]
    · rw [List.find?_cons_of_neg _ (by simp [h])]
      simp only [findValueGo, h, if_false]
      exact ih _

theorem foldl_update_last (q : Str) (es : List Entry) :
    (es.foldl (fun m e => fun r => if r = e.key then some e.value else m r)
        (fun _ => none)) q
      = (es.reverse.find? (fun e => decide (e.key = q))).map Entry.value := by
  induction es using List.reverseRecOn with
  | nil => rfl
  | append_singleton as e ih =>
    rw [List.foldl_append, List.reverse_append]
    by_cases h : e.key = q
    · simp [List.find?_cons_of_pos, h]
    · have hq : ¬(q = e.key) := fun hh => h hh.symm
      rw [List.reverse_singleton, List.singleton_append,
        List.find?_cons_of_neg _ (by simp [h])]
      simpa [hq] using ih

/-- C1: the claim that all read operations are last-duplicate-wins fails for
`get`: on the Document with lines `k=1` and `k=2`, `get` returns `"1"`, the
value of the first matching entry, not `"2"`. -/
theorem c1_dup_get_counterexample :
    get ⟨[strOf "k=1", strOf "k=2"]⟩ (strOf "k") = some (strOf "1") ∧
    get ⟨[strOf "k=1", strOf "k=2"]⟩ (strOf "k") ≠ some (strOf "2") := by
  constructor
  · decide
  · decide

/-- C1 (amended): `get` returns the value of the first entry whose key
matches (it delegates to `findValue`, which returns on the first match),
while `toObject` and `toMap` map every key to the value of its last matching
entry; on lines `k=1`, `k=2` this gives `"1"` for `get` and `"2"` for
`toObject`/`toMap`. -/
theorem c1_dup_read_amended :
    (∀ (config : Properties) (q : Str),
      get config q
        = ((listPairs config.lines).find? (fun e => decide (e.key = q))).map Entry.value) ∧
    (∀ (config : Properties) (q : Str),
      toObject config q
        = ((listPairs config.lines).reverse.find? (fun e => decide (e.key = q))).map Entry.value) ∧
    (∀ (config : Properties) (q : Str),
      toMap config q
        = ((listPairs config.lines).reverse.find? (fun e => decide (e.key = q))).map Entry.value) ∧
    get ⟨[strOf "k=1", strOf "k=2"]⟩ (strOf "k") = some (strOf "1") ∧
    toObject ⟨[strOf "k=1", strOf "k=2"]⟩ (strOf "k") = some (strOf "2") ∧
    toMap ⟨[strOf "k=1", strOf "k=2"]⟩ (strOf "k") = some (strOf "2") := by
  refine ⟨?_, ?_, ?_, by decide, ?_, ?_⟩
  · intro config q
    exact findValueGo_value q (listPairs config.lines) ['=']
  · intro config q
    exact foldl_update_last q (listPairs config.lines)
  · intro config q
    exact foldl_update_last q (listPairs config.lines)
  · decide
  · decide

/-- C4: the two lines `key=val\` and `ue` (line continuation) parse to the
single entry with key `key`, value `value`, start line 0 and length 2, and
removing `key` splices away both lines, leaving an empty line array. -/
theorem c4_continuation_parse_remove :
    listPairs [strOf "key=val\\", strOf "ue"]
      = [⟨0, 2, strOf "=", strOf "key", strOf "value"⟩] ∧
    remove ⟨[strOf "key=val\\", strOf "ue"]⟩ (strOf "key") = ⟨[]⟩ := by
  constructor
  · decide
  · decide

/-- C9: parse is total (every input string yields a Document, there is no
error result in the model, mirroring the exception-free source), and a final
line ending in an unescaped backslash is an unterminated continuation whose
partial entry is silently dropped: the Document with single line `a=b\` has
no entries at all. -/
theorem c9_permissive_parse :
    (∀ contents : Str, ∃ doc : Properties, parse contents = doc) ∧
    list ⟨[strOf "a=b\\"]⟩ = [] := by
  exact ⟨fun contents => ⟨parse contents, rfl⟩, by decide⟩

/-- C8: the claim that `unescape` turns every two-character `\X` unit into
the logical character for `X` fails when `X` is a line terminator: the JS
regex `\\(.)` does not match across `\n`, so backslash-newline is left
entirely unchanged instead of yielding a bare newline. -/
theorem c8_unescape_counterexample :
    unescape ['\\', '\n'] = ['\\', '\n'] ∧ unescape ['\\', '\n'] ≠ ['\n'] := by
  constructor
  · decide
  · decide

/-- C8 (amended): for every `\X` unit whose `X` is not a line terminator
(`\n`, `\r`, U+2028, U+2029), unescape yields the logical character for `X`
(`r`,`t`,`n`,`f` map to CR, TAB, LF, FF and any other `X`, backslash
included, maps to itself); a backslash directly followed by a line
terminator, or a trailing lone backslash, is left as-is; `\uXXXX` is not
special-cased, so `A` becomes `u0041`, not `A`. -/
theorem c8_unescape_amended :
    (∀ (x : Char) (rest : Str), isLineTerm x = false →
      unescape ('\\' :: x :: rest) = unescapeChar x :: unescape rest) ∧
    (∀ (x : Char) (rest : Str), isLineTerm x = true →
      unescape ('\\' :: x :: rest) = '\\' :: unescape (x :: rest)) ∧
    unescapeChar 'r' = '\r' ∧ unescapeChar 't' = '\t' ∧
    unescapeChar 'n' = '\n' ∧ unescapeChar 'f' = '\x0c' ∧
    (∀ x : Char, x ≠ 'r' → x ≠ 't' → x ≠ 'n' → x ≠ 'f' → unescapeChar x = x) ∧
    unescape ['\\'] = ['\\'] ∧
    unescape (strOf "\\u0041") = strOf "u0041" := by
  refine ⟨fun x rest h => unescape_esc rest h,
    fun x rest h => unescape_esc_term rest h,
    rfl, rfl, rfl, rfl, ?_, rfl, by decide⟩
  intro x h1 h2 h3 h4
  simp [unescapeChar, h1, h2, h3, h4]

/-- C8 witness: the amended characterization applied at the concrete unit
`\x` followed by `yz`. -/
theorem c8_unescape_amended_witness :
    isLineTerm 'x' = false ∧
    unescape ('\\' :: 'x' :: strOf "yz") = unescapeChar 'x' :: unescape (strOf "yz") :=
  ⟨by decide, c8_unescape_amended.1 'x' (strOf "yz") (by decide)⟩

/-- C5: when `findValue` locates an entry for the key (nonnegative start,
positive length) with a nonempty recorded separator, `set` with a string
value replaces exactly that entry's line range by the single rendered line
`escapeKey k ++ sep ++ escapeValue v`, reusing the found entry's separator;
all lines before `start` and at or after `start + len` are kept unchanged. -/
theorem c5_set_existing_frame (config : Properties) (k v : Str)
    (h1 : 0 ≤ (findValue config.lines k).start)
    (h2 : 0 < (findValue config.lines k).len)
    (h3 : (findValue config.lines k).sep ≠ []) :
    set config k (some v)
      = ⟨config.lines.take (findValue config.lines k).start.toNat
          ++ [escapeKey k ++ (findValue config.lines k).sep ++ escapeValue v]
          ++ config.lines.drop
              ((findValue config.lines k).start.toNat + (findValue config.lines k).len.toNat)⟩ := by
  unfold set splice
  simp only [if_neg h3, if_pos (And.intro h1 h2)]

/-- C5 witness: on `parse "a=1\nb = 2\nc: 3"`, setting `b` to `X` replaces
only the middle line, reusing the ` = ` separator; stringify then yields
`a=1\nb = X\nc: 3\n` exactly as the spec's end-to-end example states. -/
theorem c5_set_existing_frame_witness :
    0 ≤ (findValue (parse (strOf "a=1\nb = 2\nc: 3")).lines (strOf "b")).start ∧
    0 < (findValue (parse (strOf "a=1\nb = 2\nc: 3")).lines (strOf "b")).len ∧
    (findValue (parse (strOf "a=1\nb = 2\nc: 3")).lines (strOf "b")).sep = strOf " = " ∧
    set (parse (strOf "a=1\nb = 2\nc: 3")) (strOf "b") (some (strOf "X"))
      = ⟨[strOf "a=1", strOf "b = X", strOf "c: 3"]⟩ ∧
    stringify (set (parse (strOf "a=1\nb = 2\nc: 3")) (strOf "b") (some (strOf "X")))
      = strOf "a=1\nb = X\nc: 3\n" := by
  refine ⟨by decide, by decide, by decide, ?_, by decide⟩
  rw [c5_set_existing_frame (parse (strOf "a=1\nb = 2\nc: 3")) (strOf "b") (strOf "X")
    (by decide) (by decide) (by decide)]
  decide

/-! ### Separator tracking (C6) -/

/-- Separator used for an appended line: the separator of the last scanned
entry that has a nonempty one, defaulting to the single character `=`. -/
def lastObservedSep (es : List Entry) : Str :=
  ((es.filter (fun e => decide (e.sep ≠ []))).getLast?).elim ['='] Entry.sep

theorem findValueGo_notFound (k : Str) (es : List Entry) (hk : ∀ e ∈ es, e.key ≠ k) :
    ∀ sep0 : Str, findValueGo k sep0 es
      = ⟨-1, 0, ((es.filter (fun e => decide (e.sep ≠ []))).getLast?).elim sep0 Entry.sep, none⟩ := by
  induction es with
  | nil => intro sep0; rfl
  | cons e es ih =>
    intro sep0
    have he : e.key ≠ k := hk e (by simp)
    have hes : ∀ x ∈ es, x.key ≠ k := fun x hx => hk x (by simp [hx])
    simp only [findValueGo, if_neg he]
    rw [ih hes]
    by_cases hs : e.sep = []
    · simp [hs, List.filter_cons]
    · rw [List.filter_cons_of_pos (by simp [hs])]
      cases hfe : es.filter (fun e => decide (e.sep ≠ [])) with
      | nil => simp [hs]
      | cons f fs =>
        cases hfl : (f :: fs).getLast? with
        | none => simp at hfl
        | some a => simp [hfl]

theorem findValue_notFound (lines : List Str) (k : Str)
    (hk : ∀ e ∈ listPairs lines, e.key ≠ k) :
    findValue lines k = ⟨-1, 0, lastObservedSep (listPairs lines), none⟩ := by
  unfold findValue lastObservedSep
  exact findValueGo_notFound k (listPairs lines) hk ['=']

theorem lastObservedSep_ne_nil (es : List Entry) : lastObservedSep es ≠ [] := by
  unfold lastObservedSep
  cases hfe : (es.filter (fun e => decide (e.sep ≠ []))).getLast? with
  | none => simp
  | some f =>
    have h1 : f ∈ (es.filter (fun e => decide (e.sep ≠ []))).getLast? := by
      rw [Option.mem_def]; exact hfe
    rcases List.mem_getLast?_eq_getLast h1 with ⟨hne, heq⟩
    have hmem : f ∈ es.filter (fun e => decide (e.sep ≠ [])) := by
      rw [heq]; exact List.getLast_mem hne
    have := (List.mem_filter.mp hmem).2
    simpa using this

/-- C6: appending via `set` of a key not present in the Document uses the
most recently observed nonempty separator from the scan (which runs over the
whole Document since the key is absent), defaulting to `=` when no entry
with a separator was observed. -/
theorem c6_separator_default_append (config : Properties) (k v : Str)
    (hk : ∀ e ∈ listPairs config.lines, e.key ≠ k) :
    set config k (some v)
      = ⟨config.lines ++ [escapeKey k ++ lastObservedSep (listPairs config.lines) ++ escapeValue v]⟩ := by
  unfold set
  rw [findValue_notFound config.lines k hk]
  have hne := lastObservedSep_ne_nil (listPairs config.lines)
  simp only [if_neg hne]
  rw [if_neg (by decide : ¬((0:Int) ≤ -1 ∧ (0:Int) < 0))]

/-- C6 witness: a Document whose only entry uses the `: ` separator style
gets a new key appended with `: `, and an empty Document (no separator ever
observed) gets the default `=`. -/
theorem c6_separator_default_append_witness :
    (∀ e ∈ listPairs [strOf "a: 1"], e.key ≠ strOf "b") ∧
    set ⟨[strOf "a: 1"]⟩ (strOf "b") (some (strOf "2")) = ⟨[strOf "a: 1", strOf "b: 2"]⟩ ∧
    set ⟨[]⟩ (strOf "a") (some (strOf "1")) = ⟨[strOf "a=1"]⟩ := by
  refine ⟨by decide, ?_, by decide⟩
  rw [c6_separator_default_append ⟨[strOf "a: 1"]⟩ (strOf "b") (strOf "2") (by decide)]
  decide

/-! ### Escape/unescape inverse (C3) -/

theorem ne_char_of_toNat {c d : Char} (h : c.toNat ≠ d.toNat) : c ≠ d :=
  fun he => h (by rw [he])

theorem isLineTerm_false_of_printable {c : Char}
    (h1 : 0x20 ≤ c.toNat) (h2 : c.toNat ≤ 0x7e) : isLineTerm c = false := by
  have ha : c ≠ '\n' := ne_char_of_toNat (show c.toNat ≠ 10 by omega)
  have hb : c ≠ '\r' := ne_char_of_toNat (show c.toNat ≠ 13 by omega)
  have hc : c ≠ ' ' := ne_char_of_toNat (show c.toNat ≠ 8232 by omega)
  have hd : c ≠ ' ' := ne_char_of_toNat (show c.toNat ≠ 8233 by omega)
  simp [isLineTerm, ha, hb, hc, hd]

theorem unescape_escGo :
    ∀ s : Str, (∀ c ∈ s, 0x20 ≤ c.toNat ∧ c.toNat ≤ 0x7e) →
      ∀ first : Bool, unescape (escGo false true first s) = s := by
  intro s
  induction s with
  | nil => intro _ _; rfl
  | cons c rest ih =>
    intro hp first
    have hc := hp c (List.mem_cons_self c rest)
    have hrest : ∀ x ∈ rest, 0x20 ≤ x.toNat ∧ x.toNat ≤ 0x7e :=
      fun x hx => hp x (List.mem_cons_of_mem c hx)
    have hff : c ≠ '\x0c' := ne_char_of_toNat (show c.toNat ≠ 12 by omega)
    have hnl : c ≠ '\n' := ne_char_of_toNat (show c.toNat ≠ 10 by omega)
    have hcr : c ≠ '\r' := ne_char_of_toNat (show c.toNat ≠ 13 by omega)
    have htb : c ≠ '\t' := ne_char_of_toNat (show c.toNat ≠ 9 by omega)
    show unescape (escChar false true first c ++ escGo false true false rest) = c :: rest
    by_cases hsp : c = ' '
    · subst hsp
      cases first with
      | false =>
        rw [(by decide : escChar false true false ' ' = [' ']), List.singleton_append,
          unescape_cons_ne _ (by decide), ih hrest false]
      | true =>
        rw [(by decide : escChar false true true ' ' = ['\\', ' ']), List.cons_append,
          List.singleton_append, unescape_esc _ (by decide),
          (by decide : unescapeChar ' ' = ' '), ih hrest false]
    · by_cases hbs : c = '\\'
      · subst hbs
        have he : escChar false true first '\\' = ['\\', '\\'] := by
          cases first <;> decide
        rw [he, List.cons_append, List.singleton_append, unescape_esc _ (by decide),
          (by decide : unescapeChar '\\' = '\\'), ih hrest false]
      · by_cases hsc : c = '=' ∨ c = ':' ∨ c = '#' ∨ c = '!'
        · have he : escChar false true first c = ['\\', c] := by
            rcases hsc with h | h | h | h <;> subst h <;> cases first <;> decide
          have hg : unescapeChar c = c := by
            rcases hsc with h | h | h | h <;> subst h <;> decide
          rw [he, List.cons_append, List.singleton_append,
            unescape_esc _ (isLineTerm_false_of_printable hc.1 hc.2), hg, ih hrest false]
        · have he : escChar false true first c = [c] := by
            unfold escChar
            rw [if_neg hsp, if_neg hbs, if_neg hff, if_neg hnl, if_neg hcr, if_neg htb,
              if_neg hsc, if_neg (show ¬(true = true ∧ (c.toNat < 0x20 ∨ c.toNat > 0x7e)) by
                intro hx
                rcases hx.2 with hx2 | hx2 <;> omega)]
          rw [he, List.singleton_append, unescape_cons_ne _ hbs, ih hrest false]

/-- C3: for text consisting only of printable ASCII characters (code points
0x20 through 0x7e), unescape is a left inverse of escapeValue. -/
theorem c3_escape_unescape_inverse (text : Str)
    (h : ∀ c ∈ text, 0x20 ≤ c.toNat ∧ c.toNat ≤ 0x7e) :
    unescape (escapeValue text) = text :=
  unescape_escGo text h true

/-- C3 witness: the inverse property applied to the concrete printable text
`a b=c:\#!` which exercises the space, separator and comment escapes. -/
theorem c3_escape_unescape_inverse_witness :
    (∀ c ∈ strOf "a b=c:\\#!", 0x20 ≤ c.toNat ∧ c.toNat ≤ 0x7e) ∧
    unescape (escapeValue (strOf "a b=c:\\#!")) = strOf "a b=c:\\#!" :=
  ⟨by decide, c3_escape_unescape_inverse (strOf "a b=c:\\#!") (by decide)⟩

/-! ### Tokenizer state invariants -/

/-- Well-formed separator content: only spaces, `=` and `:`, with at most one
non-space character. -/
def sepOk (s : Str) : Prop :=
  (∀ c ∈ s, c = ' ' ∨ c = '=' ∨ c = ':') ∧
  (s.filter (fun c => decide (c ≠ ' '))).length ≤ 1

/-- Line-boundary state with no entry pending (fresh or after a blank line). -/
def BS (st : TkState) : Prop :=
  st.state = PState.start ∧ st.start = -1 ∧ st.key = [] ∧ st.sep = [] ∧
  st.value = [] ∧ st.escapedNext = false

/-- Line-boundary state in the middle of a continuation entry. -/
def ContS (st : TkState) : Prop :=
  (st.state = PState.key ∨ st.state = PState.value) ∧ st.escapedNext = false ∧
  st.skipSpace = true ∧ sepOk st.sep ∧
  (st.state = PState.key → st.sep = [] ∧ st.value = [])

/-- Invariant holding at every point while scanning characters of line `i`,
where `a` is the start line recorded for the in-flight entry (and `a = i`
whenever no entry from an earlier line is pending). -/
def MInv (i a : Int) (st : TkState) : Prop :=
  (st.state = PState.start → st.start = -1 ∧ st.key = [] ∧ st.sep = [] ∧
      st.value = [] ∧ st.escapedNext = false ∧ a = i) ∧
  (st.state = PState.comment → st.start = i ∧ st.key = [] ∧ st.sep = [] ∧
      st.value = [] ∧ st.escapedNext = false ∧ a = i) ∧
  (st.state = PState.key → st.start = a ∧ st.sep = [] ∧ st.value = []) ∧
  (st.state = PState.separator → st.start = a ∧ st.value = [] ∧
      st.escapedNext = false) ∧
  (st.state = PState.value → st.start = a) ∧
  sepOk st.sep

theorem sepOk_nil : sepOk [] := ⟨by simp, by simp⟩

theorem sepOk_append_space {s : Str} (h : sepOk s) : sepOk (s ++ [' ']) := by
  constructor
  · intro c hc
    rcases List.mem_append.mp hc with hc | hc
    · exact h.1 c hc
    · simp at hc; subst hc; left; rfl
  · rw [List.filter_append]
    simpa using h.2

theorem sepOk_filter_nil {s : Str}
    (h1 : ∀ c ∈ s, c = ' ' ∨ c = '=' ∨ c = ':')
    (h2 : s.any (fun x => decide (x = '=' ∨ x = ':')) = false) :
    s.filter (fun c => decide (c ≠ ' ')) = [] := by
  rw [List.filter_eq_nil_iff]
  intro a ha
  rcases h1 a ha with h | h | h
  · simp [h]
  · exfalso
    have := List.any_eq_false.mp h2 a ha
    simp [h] at this
  · exfalso
    have := List.any_eq_false.mp h2 a ha
    simp [h] at this

theorem sepOk_append_nonspace {s : Str} {c : Char}
    (h : sepOk s)
    (h2 : s.any (fun x => decide (x = '=' ∨ x = ':')) = false)
    (hc : c = '=' ∨ c = ':') : sepOk (s ++ [c]) := by
  constructor
  · intro x hx
    rcases List.mem_append.mp hx with hx | hx
    · exact h.1 x hx
    · simp at hx; subst hx
      rcases hc with h | h
      · right; left; exact h
      · right; right; exact h
  · rw [List.filter_append, sepOk_filter_nil h.1 h2]
    have : c ≠ ' ' := by rcases hc with h | h <;> subst h <;> decide
    simp [this]

/-! ### Explicit characterization of stepCh on each reachable state shape -/

theorem stepCh_start (i : Int) (sk : Bool) (c : Char) :
    stepCh i ⟨PState.start, -1, [], [], [], sk, false⟩ c =
      if sk ∧ c = ' ' then ⟨PState.start, -1, [], [], [], sk, false⟩
      else if c = '#' ∨ c = '!' then ⟨PState.comment, i, [], [], [], false, false⟩
      else if c = ' ' then ⟨PState.separator, i, [], [' '], [], false, false⟩
      else if c = '=' ∨ c = ':' then ⟨PState.separator, i, [], [c], [], false, false⟩
      else if c = '\\' then ⟨PState.key, i, [], [], [], false, true⟩
      else ⟨PState.key, i, [c], [], [], false, false⟩ := by
  simp only [stepCh, stepStartBlk, stepKeyBlk, stepSepBlk, stepValBlk]
  split_ifs <;> simp_all

theorem stepCh_comment (i : Int) (sa : Int) (sk : Bool) (c : Char) :
    stepCh i ⟨PState.comment, sa, [], [], [], sk, false⟩ c =
      if sk ∧ c = ' ' then ⟨PState.comment, sa, [], [], [], sk, false⟩
      else ⟨PState.comment, sa, [], [], [], false, false⟩ := by
  simp only [stepCh, stepStartBlk, stepKeyBlk, stepSepBlk, stepValBlk]
  split_ifs <;> simp_all

theorem stepCh_key (i sa : Int) (k : Str) (sk e : Bool) (c : Char) :
    stepCh i ⟨PState.key, sa, k, [], [], sk, e⟩ c =
      if sk ∧ c = ' ' then ⟨PState.key, sa, k, [], [], sk, e⟩
      else if c = ' ' ∨ c = '=' ∨ c = ':' then
        (if e then ⟨PState.key, sa, k ++ [c], [], [], false, false⟩
         else if c = ' ' then ⟨PState.separator, sa, k, [' '], [], false, false⟩
         else ⟨PState.separator, sa, k, [c], [], false, false⟩)
      else if c = '\\' then
        (if e then ⟨PState.key, sa, k ++ ['\\'], [], [], false, false⟩
         else ⟨PState.key, sa, k, [], [], false, true⟩)
      else ⟨PState.key, sa, k ++ [if e then unescapeChar c else c], [], [], false, false⟩ := by
  simp only [stepCh, stepStartBlk, stepKeyBlk, stepSepBlk, stepValBlk]
  split_ifs <;> simp_all

theorem stepCh_separator (i sa : Int) (k sp : Str) (sk : Bool) (c : Char) :
    stepCh i ⟨PState.separator, sa, k, sp, [], sk, false⟩ c =
      if sk ∧ c = ' ' then ⟨PState.separator, sa, k, sp, [], sk, false⟩
      else if c = ' ' then ⟨PState.separator, sa, k, sp ++ [' '], [], false, false⟩
      else if c = '=' ∨ c = ':' then
        (if sp.any (fun x => decide (x = '=' ∨ x = ':')) then
            ⟨PState.value, sa, k, sp, [c], false, false⟩
         else ⟨PState.separator, sa, k, sp ++ [c], [], false, false⟩)
      else if c = '\\' then ⟨PState.value, sa, k, sp, [], false, true⟩
      else ⟨PState.value, sa, k, sp, [c], false, false⟩ := by
  simp only [stepCh, stepStartBlk, stepKeyBlk, stepSepBlk, stepValBlk]
  split_ifs <;> simp_all

theorem stepCh_value (i sa : Int) (k sp v : Str) (sk e : Bool) (c : Char) :
    stepCh i ⟨PState.value, sa, k, sp, v, sk, e⟩ c =
      if sk ∧ c = ' ' then ⟨PState.value, sa, k, sp, v, sk, e⟩
      else if c = '\\' then
        (if e then ⟨PState.value, sa, k, sp, v ++ ['\\'], false, false⟩
         else ⟨PState.value, sa, k, sp, v, false, true⟩)
      else ⟨PState.value, sa, k, sp, v ++ [if e then unescapeChar c else c], false, false⟩ := by
  simp only [stepCh, stepStartBlk, stepKeyBlk, stepSepBlk, stepValBlk]
  split_ifs <;> simp_all

/-! ### Invariant preservation over a line scan -/

theorem sepOk_singleton_sep {c : Char} (hc : c = '=' ∨ c = ':') : sepOk [c] := by
  constructor
  · intro x hx
    simp at hx; subst hx
    rcases hc with h | h
    · right; left; exact h
    · right; right; exact h
  · rcases hc with h | h <;> subst h <;> decide

theorem MInv_stepCh (i a : Int) (st : TkState) (c : Char) (h : MInv i a st) :
    MInv i a (stepCh i st c) ∧
    ((st.state = PState.key ∨ st.state = PState.separator ∨ st.state = PState.value) →
      ((stepCh i st c).state = PState.key ∨ (stepCh i st c).state = PState.separator ∨
        (stepCh i st c).state = PState.value)) := by
  obtain ⟨s, sa, k, sp, v, sk, e⟩ := st
  cases s with
  | start =>
    have h0 := h.1 rfl
    have hsa : sa = -1 := h0.1
    have hk : k = [] := h0.2.1
    have hsp : sp = [] := h0.2.2.1
    have hv : v = [] := h0.2.2.2.1
    have he : e = false := h0.2.2.2.2.1
    have hai : a = i := h0.2.2.2.2.2
    subst hsa; subst hk; subst hsp; subst hv; subst he; subst hai
    rw [stepCh_start]
    split_ifs <;> refine ⟨⟨by simp, by simp, by simp, by simp, by simp, ?_⟩, by simp⟩ <;>
      first
        | exact sepOk_nil
        | exact sepOk_append_space sepOk_nil
        | (apply sepOk_singleton_sep; tauto)
  | comment =>
    have h0 := h.2.1 rfl
    have hsa : sa = i := h0.1
    have hk : k = [] := h0.2.1
    have hsp : sp = [] := h0.2.2.1
    have hv : v = [] := h0.2.2.2.1
    have he : e = false := h0.2.2.2.2.1
    have hai : a = i := h0.2.2.2.2.2
    subst hsa; subst hk; subst hsp; subst hv; subst he; subst hai
    rw [stepCh_comment]
    split_ifs <;> refine ⟨⟨by simp, by simp, by simp, by simp, by simp, ?_⟩, by simp⟩ <;>
      exact sepOk_nil
  | key =>
    have h0 := h.2.2.1 rfl
    have hsa : sa = a := h0.1
    have hsp : sp = [] := h0.2.1
    have hv : v = [] := h0.2.2
    subst hsa; subst hsp; subst hv
    rw [stepCh_key]
    split_ifs <;> refine ⟨⟨by simp, by simp, by simp, by simp, by simp, ?_⟩, by simp⟩ <;>
      first
        | exact sepOk_nil
        | exact sepOk_append_space sepOk_nil
        | (apply sepOk_singleton_sep; tauto)
  | separator =>
    have h0 := h.2.2.2.1 rfl
    have hsa : sa = a := h0.1
    have hv : v = [] := h0.2.1
    have he : e = false := h0.2.2
    have hso : sepOk sp := h.2.2.2.2.2
    subst hsa; subst hv; subst he
    rw [stepCh_separator]
    split_ifs <;> refine ⟨⟨by simp, by simp, by simp, by simp, by simp, ?_⟩, by simp⟩ <;>
      first
        | exact hso
        | exact sepOk_append_space hso
        | ((apply sepOk_append_nonspace hso) <;> simp_all)
  | value =>
    have hsa : sa = a := h.2.2.2.2.1 rfl
    have hso : sepOk sp := h.2.2.2.2.2
    subst hsa
    rw [stepCh_value]
    split_ifs <;> refine ⟨⟨by simp, by simp, by simp, by simp, by simp, ?_⟩, by simp⟩ <;>
      exact hso

theorem BS_initState : BS initState :=
  ⟨rfl, rfl, rfl, rfl, rfl, rfl⟩

theorem MInv_of_BS (i : Int) {st : TkState} (h : BS st) : MInv i i st := by
  refine ⟨fun _ => ⟨h.2.1, h.2.2.1, h.2.2.2.1, h.2.2.2.2.1, h.2.2.2.2.2, rfl⟩,
    fun hc => ?_, fun hc => ?_, fun hc => ?_, fun hc => ?_, ?_⟩
  · rw [h.1] at hc; exact absurd hc (by decide)
  · rw [h.1] at hc; exact absurd hc (by decide)
  · rw [h.1] at hc; exact absurd hc (by decide)
  · rw [h.1] at hc; exact absurd hc (by decide)
  · rw [h.2.2.2.1]; exact sepOk_nil

theorem MInv_of_ContS (i : Int) {st : TkState} (h : ContS st) : MInv i st.start st := by
  refine ⟨fun hc => ?_, fun hc => ?_, fun hc => ⟨rfl, (h.2.2.2.2 hc).1, (h.2.2.2.2 hc).2⟩,
    fun hc => ?_, fun _ => rfl, h.2.2.2.1⟩
  · rcases h.1 with h1 | h1 <;> rw [h1] at hc <;> exact absurd hc (by decide)
  · rcases h.1 with h1 | h1 <;> rw [h1] at hc <;> exact absurd hc (by decide)
  · rcases h.1 with h1 | h1 <;> rw [h1] at hc <;> exact absurd hc (by decide)

theorem MInv_runChars (i a : Int) (cs : Str) : ∀ st : TkState, MInv i a st →
    MInv i a (runChars i st cs) ∧
    ((st.state = PState.key ∨ st.state = PState.separator ∨ st.state = PState.value) →
      ((runChars i st cs).state = PState.key ∨ (runChars i st cs).state = PState.separator ∨
        (runChars i st cs).state = PState.value)) := by
  induction cs with
  | nil => intro st h; exact ⟨h, fun hx => hx⟩
  | cons c cs ih =>
    intro st h
    have h1 := MInv_stepCh i a st c h
    have h2 := ih (stepCh i st c) h1.1
    exact ⟨h2.1, fun hx => h2.2 (h1.2 hx)⟩

theorem stepEol_of_MInv (i a : Int) (st : TkState) (h : MInv i a st) :
    ((stepEol i st).2 = none ∧
      ((BS (stepEol i st).1 ∧ (st.state = PState.start ∨ st.state = PState.comment)) ∨
        (ContS (stepEol i st).1 ∧ (stepEol i st).1.start = a))) ∨
    (∃ el, (stepEol i st).2 = some el ∧ (stepEol i st).1 = initState ∧
      el.start = a ∧ el.len = i - a + 1 ∧ sepOk el.sep) := by
  obtain ⟨s, sa, k, sp, v, sk, e⟩ := st
  cases s with
  | start =>
    have h0 := h.1 rfl
    exact Or.inl ⟨rfl, Or.inl ⟨⟨rfl, h0.1, h0.2.1, h0.2.2.1, h0.2.2.2.1, h0.2.2.2.2.1⟩,
      Or.inl rfl⟩⟩
  | comment =>
    exact Or.inl ⟨rfl, Or.inl ⟨BS_initState, Or.inr rfl⟩⟩
  | key =>
    have h0 := h.2.2.1 rfl
    have hsa : sa = a := h0.1
    have hsp : sp = [] := h0.2.1
    have hv : v = [] := h0.2.2
    subst hsa; subst hsp; subst hv
    cases e with
    | true =>
      refine Or.inl ⟨by simp [stepEol], Or.inr ⟨?_, by simp [stepEol]⟩⟩
      refine ⟨Or.inl (by simp [stepEol]), by simp [stepEol], by simp [stepEol], ?_, ?_⟩
      · simp only [stepEol]; exact sepOk_nil
      · intro _; simp [stepEol]
    | false =>
      exact Or.inr ⟨⟨sa, i - sa + 1, [], k, []⟩, by simp [stepEol], by simp [stepEol],
        rfl, rfl, sepOk_nil⟩
  | separator =>
    have h0 := h.2.2.2.1 rfl
    have hsa : sa = a := h0.1
    have hso : sepOk sp := h.2.2.2.2.2
    subst hsa
    exact Or.inr ⟨⟨sa, i - sa + 1, sp, k, v⟩, by simp [stepEol], by simp [stepEol],
      rfl, rfl, hso⟩
  | value =>
    have hsa : sa = a := h.2.2.2.2.1 rfl
    have hso : sepOk sp := h.2.2.2.2.2
    subst hsa
    cases e with
    | true =>
      refine Or.inl ⟨by simp [stepEol], Or.inr ⟨?_, by simp [stepEol]⟩⟩
      refine ⟨Or.inr (by simp [stepEol]), by simp [stepEol], by simp [stepEol], ?_, ?_⟩
      · simp only [stepEol]; exact hso
      · intro hx; simp [stepEol] at hx
    | false =>
      exact Or.inr ⟨⟨sa, i - sa + 1, sp, k, v⟩, by simp [stepEol], by simp [stepEol],
        rfl, rfl, hso⟩

theorem runLine_of_BS (i : Int) (st : TkState) (l : Str) (h : BS st) :
    ((runLine i st l).2 = none ∧
      (BS (runLine i st l).1 ∨ (ContS (runLine i st l).1 ∧ (runLine i st l).1.start = i))) ∨
    (∃ el, (runLine i st l).2 = some el ∧ (runLine i st l).1 = initState ∧
      el.start = i ∧ el.len = 1 ∧ sepOk el.sep) := by
  have h1 := (MInv_runChars i i l st (MInv_of_BS i h)).1
  have h2 := stepEol_of_MInv i i (runChars i st l) h1
  rcases h2 with ⟨hnone, hbs | hcont⟩ | ⟨el, he1, he2, he3, he4, he5⟩
  · exact Or.inl ⟨hnone, Or.inl hbs.1⟩
  · exact Or.inl ⟨hnone, Or.inr hcont⟩
  · refine Or.inr ⟨el, he1, he2, he3, ?_, he5⟩
    rw [he4]; ring

theorem runLine_of_ContS (i : Int) (st : TkState) (l : Str) (h : ContS st) :
    ((runLine i st l).2 = none ∧ ContS (runLine i st l).1 ∧
      (runLine i st l).1.start = st.start) ∨
    (∃ el, (runLine i st l).2 = some el ∧ (runLine i st l).1 = initState ∧
      el.start = st.start ∧ el.len = i - st.start + 1 ∧ sepOk el.sep) := by
  have hm := MInv_runChars i st.start l st (MInv_of_ContS i h)
  have hst : st.state = PState.key ∨ st.state = PState.separator ∨ st.state = PState.value := by
    rcases h.1 with h1 | h1
    · exact Or.inl h1
    · exact Or.inr (Or.inr h1)
  have hpres := hm.2 hst
  have h2 := stepEol_of_MInv i st.start (runChars i st l) hm.1
  rcases h2 with ⟨hnone, ⟨_, hsc⟩ | hcont⟩ | hyield
  · exfalso
    rcases hpres with hx | hx | hx <;> rcases hsc with hy | hy <;> rw [hx] at hy <;>
      exact absurd hy (by decide)
  · exact Or.inl ⟨hnone, hcont.1, hcont.2⟩
  · exact Or.inr hyield

theorem runLinesGo_cons (i : Int) (st : TkState) (l : Str) (ls : List Str) :
    runLinesGo i st (l :: ls)
      = ((runLinesGo (i + 1) (runLine i st l).1 ls).1,
         (runLine i st l).2.toList ++ (runLinesGo (i + 1) (runLine i st l).1 ls).2) := rfl

theorem runLinesGo_facts (ls : List Str) : ∀ (i : Int) (st : TkState), BS st ∨ ContS st →
    (∀ e ∈ (runLinesGo i st ls).2, sepOk e.sep) ∧
    (BS (runLinesGo i st ls).1 ∨ ContS (runLinesGo i st ls).1) := by
  induction ls with
  | nil => intro i st h; exact ⟨by simp [runLinesGo], h⟩
  | cons l ls ih =>
    intro i st h
    rw [runLinesGo_cons]
    have hline :
        ((runLine i st l).2 = none ∧ (BS (runLine i st l).1 ∨ ContS (runLine i st l).1)) ∨
        (∃ el, (runLine i st l).2 = some el ∧ (runLine i st l).1 = initState ∧
          sepOk el.sep) := by
      rcases h with h | h
      · rcases runLine_of_BS i st l h with ⟨h1, h2 | h2⟩ | ⟨el, h1, h2, _, _, h5⟩
        · exact Or.inl ⟨h1, Or.inl h2⟩
        · exact Or.inl ⟨h1, Or.inr h2.1⟩
        · exact Or.inr ⟨el, h1, h2, h5⟩
      · rcases runLine_of_ContS i st l h with ⟨h1, h2, _⟩ | ⟨el, h1, h2, _, _, h5⟩
        · exact Or.inl ⟨h1, Or.inr h2⟩
        · exact Or.inr ⟨el, h1, h2, h5⟩
    rcases hline with ⟨h1, h2⟩ | ⟨el, h1, h2, h3⟩
    · have hi := ih (i + 1) (runLine i st l).1 h2
      rw [h1]
      exact ⟨by simpa using hi.1, hi.2⟩
    · have hi := ih (i + 1) (runLine i st l).1 (by rw [h2]; exact Or.inl BS_initState)
      rw [h1]
      refine ⟨?_, hi.2⟩
      intro e he
      rcases (by simpa using he :
          e = el ∨ e ∈ (runLinesGo (i + 1) (runLine i st l).1 ls).2) with he1 | he1
      · subst he1; exact h3
      · exact hi.1 e he1

/-- C7: on `a==b` the second `=` starts the value (entry key `a`, separator
`=`, value `=b`), and in general every emitted entry's separator consists
only of spaces, `=` and `:` with at most one non-space character. -/
theorem c7_second_separator_rule :
    listPairs [strOf "a==b"] = [⟨0, 1, strOf "=", strOf "a", strOf "=b"⟩] ∧
    ∀ (lines : List Str), ∀ e ∈ listPairs lines,
      (∀ c ∈ e.sep, c = ' ' ∨ c = '=' ∨ c = ':') ∧
      (e.sep.filter (fun c => decide (c ≠ ' '))).length ≤ 1 := by
  refine ⟨by decide, ?_⟩
  intro lines e he
  exact (runLinesGo_facts lines 0 initState (Or.inl BS_initState)).1 e he

/-- C7 witness: the separator invariant applied to the concrete entry of the
Document with the single line `a : b`. -/
theorem c7_second_separator_rule_witness :
    ⟨0, 1, strOf " : ", strOf "a", strOf "b"⟩ ∈ listPairs [strOf "a : b"] ∧
    (∀ c ∈ strOf " : ", c = ' ' ∨ c = '=' ∨ c = ':') ∧
    (((strOf " : ").filter (fun c => decide (c ≠ ' '))).length ≤ 1) := by
  refine ⟨by decide, ?_⟩
  have := c7_second_separator_rule.2 [strOf "a : b"]
    ⟨0, 1, strOf " : ", strOf "a", strOf "b"⟩ (by decide)
  exact this

/-! ### Round-trip analysis (C2) -/

/-- Modelled from the spec: line-terminator normalization — every CRLF pair
or lone CR becomes a single LF. -/
def termNorm : Str → Str
  | [] => []
  | c :: rest =>
    if c = '\r' then
      match rest with
      | d :: rest2 =>
        if d = '\n' then '\n' :: termNorm rest2
        else '\n' :: termNorm (d :: rest2)
      | [] => ['\n']
    else c :: termNorm rest

def splitNlGo : Str → Str → List Str
  | acc, [] => [acc.reverse]
  | acc, c :: rest =>
    if c = '\n' then acc.reverse :: splitNlGo [] rest
    else splitNlGo (c :: acc) rest

def splitNl (s : Str) : List Str := splitNlGo [] s

def dropLeadingNl (s : Str) : Str := s.dropWhile (fun c => decide (c = '\n'))

/-- The trailing-terminator adjustment the code actually performs: remove one
trailing newline if present, then append one when the remaining text is
nonempty and does not already end in a newline. -/
def trailFix (s : Str) : Str :=
  let s2 := if s.getLast? = some '\n' then s.dropLast else s
  if s2 ≠ [] ∧ s2.getLast? ≠ some '\n' then s2 ++ ['\n'] else s2

/-- Modelled from the spec: the transformation the round-trip claim allows —
terminator normalization plus a guaranteed single trailing terminator on
nonempty text, and nothing else. -/
def claimNorm (s : Str) : Str :=
  let t := termNorm s
  if t = [] then [] else if t.getLast? = some '\n' then t else t ++ ['\n']

theorem splitLinesGo_nl (acc rest : Str) :
    splitLinesGo acc ('\n' :: rest) = acc.reverse :: splitLinesGo [] rest := by
  cases rest <;> (simp only [splitLinesGo]; rw [if_neg (by decide : ¬(('\n' : Char) = '\r'))]) <;>
    simp [splitLinesGo]

theorem termNorm_nl (rest : Str) : termNorm ('\n' :: rest) = '\n' :: termNorm rest := by
  cases rest <;> (simp only [termNorm]; rw [if_neg (by decide : ¬(('\n' : Char) = '\r'))])

theorem splitLinesGo_other {c : Char} (h1 : ¬(c = '\r')) (h2 : ¬(c = '\n'))
    (acc rest : Str) : splitLinesGo acc (c :: rest) = splitLinesGo (c :: acc) rest := by
  cases rest <;> (simp only [splitLinesGo]; rw [if_neg h1, if_neg h2])

theorem termNorm_other {c : Char} (h1 : ¬(c = '\r')) (rest : Str) :
    termNorm (c :: rest) = c :: termNorm rest := by
  cases rest <;> (simp only [termNorm]; rw [if_neg h1])

theorem dropLeadingEmpties_singleton (l : Str) : dropLeadingEmpties [l] = [l] := by
  cases l <;> rfl

theorem splitLinesGo_eq_splitNlGo :
    ∀ (n : Nat) (t : Str), t.length ≤ n →
      ∀ acc, splitLinesGo acc t = splitNlGo acc (termNorm t) := by
  intro n
  induction n with
  | zero =>
    intro t ht acc
    have h0 : t = [] := List.length_eq_zero.mp (Nat.le_zero.mp ht)
    subst h0; rfl
  | succ n ih =>
    intro t ht acc
    cases t with
    | nil => rfl
    | cons c rest =>
      by_cases hr : c = '\r'
      · subst hr
        cases rest with
        | nil => rfl
        | cons d rest2 =>
          by_cases hd : d = '\n'
          · subst hd
            rw [show splitLinesGo acc ('\r' :: '\n' :: rest2)
                  = acc.reverse :: splitLinesGo [] rest2 from rfl,
              show termNorm ('\r' :: '\n' :: rest2) = '\n' :: termNorm rest2 from rfl,
              show splitNlGo acc ('\n' :: termNorm rest2)
                  = acc.reverse :: splitNlGo [] (termNorm rest2) from rfl,
              ih rest2 (by simp at ht; omega) []]
          · rw [show splitLinesGo acc ('\r' :: d :: rest2)
                  = if d = '\n' then acc.reverse :: splitLinesGo [] rest2
                    else acc.reverse :: splitLinesGo [] (d :: rest2) from rfl,
              if_neg hd,
              show termNorm ('\r' :: d :: rest2)
                  = if d = '\n' then '\n' :: termNorm rest2
                    else '\n' :: termNorm (d :: rest2) from rfl,
              if_neg hd,
              show splitNlGo acc ('\n' :: termNorm (d :: rest2))
                  = acc.reverse :: splitNlGo [] (termNorm (d :: rest2)) from rfl,
              ih (d :: rest2) (by simp at ht ⊢; omega) []]
      · by_cases hn : c = '\n'
        · subst hn
          rw [splitLinesGo_nl, termNorm_nl,
            show splitNlGo acc ('\n' :: termNorm rest)
                = acc.reverse :: splitNlGo [] (termNorm rest) from rfl,
            ih rest (by simp at ht; omega) []]
        · rw [splitLinesGo_other hr hn, termNorm_other hr]
          simp only [splitNlGo]
          rw [if_neg hn]
          exact ih rest (by simp at ht; omega) (c :: acc)

theorem splitLines_eq (s : Str) : splitLines s = splitNl (termNorm s) :=
  splitLinesGo_eq_splitNlGo s.length s (Nat.le_refl _) []

theorem splitNlGo_ne_nil : ∀ (t acc : Str), splitNlGo acc t ≠ [] := by
  intro t
  induction t with
  | nil => intro acc; simp [splitNlGo]
  | cons c rest ih =>
    intro acc
    by_cases hn : c = '\n'
    · subst hn
      rw [show splitNlGo acc ('\n' :: rest) = acc.reverse :: splitNlGo [] rest from rfl]
      simp
    · rw [show splitNlGo acc (c :: rest)
          = if c = '\n' then acc.reverse :: splitNlGo [] rest
            else splitNlGo (c :: acc) rest from rfl, if_neg hn]
      exact ih (c :: acc)

theorem noNl_splitNlGo :
    ∀ (t acc : Str), (∀ c ∈ acc, ¬(c = '\n')) →
      ∀ l ∈ splitNlGo acc t, '\n' ∉ l := by
  intro t
  induction t with
  | nil =>
    intro acc hacc l hl hmem
    simp [splitNlGo] at hl
    subst hl
    exact hacc '\n' (by simpa using hmem) rfl
  | cons c rest ih =>
    intro acc hacc l hl
    by_cases hn : c = '\n'
    · subst hn
      rw [show splitNlGo acc ('\n' :: rest) = acc.reverse :: splitNlGo [] rest from rfl] at hl
      rcases List.mem_cons.mp hl with hl | hl
      · subst hl
        intro hmem
        exact hacc '\n' (by simpa using hmem) rfl
      · exact ih [] (by simp) l hl
    · rw [show splitNlGo acc (c :: rest)
          = if c = '\n' then acc.reverse :: splitNlGo [] rest
            else splitNlGo (c :: acc) rest from rfl, if_neg hn] at hl
      refine ih (c :: acc) ?_ l hl
      intro x hx
      rcases List.mem_cons.mp hx with hx | hx
      · subst hx; exact hn
      · exact hacc x hx

theorem joinNl_cons_ne (l : Str) {ls : List Str} (h : ls ≠ []) :
    joinNl (l :: ls) = l ++ '\n' :: joinNl ls := by
  cases ls with
  | nil => exact absurd rfl h
  | cons x xs => rfl

theorem joinNl_splitNlGo : ∀ (t acc : Str), joinNl (splitNlGo acc t) = acc.reverse ++ t := by
  intro t
  induction t with
  | nil => intro acc; simp [splitNlGo, joinNl]
  | cons c rest ih =>
    intro acc
    by_cases hn : c = '\n'
    · subst hn
      rw [show splitNlGo acc ('\n' :: rest) = acc.reverse :: splitNlGo [] rest from rfl,
        joinNl_cons_ne _ (splitNlGo_ne_nil rest []), ih []]
      simp
    · rw [show splitNlGo acc (c :: rest)
          = if c = '\n' then acc.reverse :: splitNlGo [] rest
            else splitNlGo (c :: acc) rest from rfl, if_neg hn, ih (c :: acc)]
      simp

theorem joinNl_splitNl (s : Str) : joinNl (splitNl s) = s := by
  rw [splitNl, joinNl_splitNlGo]; rfl

theorem dropLeadingNl_no_nl {l : Str} (h : '\n' ∉ l) : dropLeadingNl l = l := by
  cases l with
  | nil => rfl
  | cons c rest =>
    have hc : ¬(c = '\n') := fun hcc => h (by rw [hcc]; simp)
    simp [dropLeadingNl, List.dropWhile_cons, hc]

theorem dropLeadingNl_joinNl :
    ∀ ls : List Str, ls ≠ [] → (∀ l ∈ ls, '\n' ∉ l) →
      dropLeadingNl (joinNl ls) = joinNl (dropLeadingEmpties ls) := by
  intro ls
  induction ls with
  | nil => intro h; exact absurd rfl h
  | cons l ls ih =>
    intro _ hnl
    cases ls with
    | nil =>
      rw [dropLeadingEmpties_singleton]
      exact dropLeadingNl_no_nl (hnl l (by simp))
    | cons l2 rest =>
      cases l with
      | nil =>
        rw [show joinNl ([] :: l2 :: rest) = '\n' :: joinNl (l2 :: rest) from rfl,
          show dropLeadingNl ('\n' :: joinNl (l2 :: rest))
              = dropLeadingNl (joinNl (l2 :: rest)) from by
            simp [dropLeadingNl, List.dropWhile_cons],
          ih (by simp) (fun x hx => hnl x (by simp [hx])),
          show dropLeadingEmpties ([] :: l2 :: rest) = dropLeadingEmpties (l2 :: rest) from rfl]
      | cons ch l1 =>
        have hch : ¬(ch = '\n') := fun hcc => (hnl (ch :: l1) (by simp)) (by rw [hcc]; simp)
        have h1 : dropLeadingNl (joinNl ((ch :: l1) :: l2 :: rest))
            = joinNl ((ch :: l1) :: l2 :: rest) := by
          rw [show joinNl ((ch :: l1) :: l2 :: rest)
                = ch :: (l1 ++ '\n' :: joinNl (l2 :: rest)) from rfl]
          simp [dropLeadingNl, List.dropWhile_cons, hch]
        rw [h1, show dropLeadingEmpties ((ch :: l1) :: l2 :: rest)
              = (ch :: l1) :: l2 :: rest from rfl]

theorem getLast?_ne_nl {l : Str} (h : '\n' ∉ l) : l.getLast? ≠ some '\n' := by
  intro heq
  have hm : '\n' ∈ l.getLast? := by rw [Option.mem_def]; exact heq
  rcases List.mem_getLast?_eq_getLast hm with ⟨hne, heq2⟩
  exact h (heq2 ▸ List.getLast_mem hne)

theorem joinNl_concat : ∀ (m : List Str), m ≠ [] → ∀ l : Str,
    joinNl (m ++ [l]) = joinNl m ++ '\n' :: l := by
  intro m
  induction m with
  | nil => intro h; exact absurd rfl h
  | cons x xs ih =>
    intro _ l
    cases xs with
    | nil => rfl
    | cons y ys =>
      have h1 : joinNl ((x :: y :: ys) ++ [l]) = x ++ '\n' :: joinNl ((y :: ys) ++ [l]) := rfl
      rw [h1, ih (by simp) l,
        joinNl_cons_ne x (show (y :: ys : List Str) ≠ [] by simp)]
      simp

theorem getLast?_joinNl_concat_cons (bs : List Str) (ch : Char) (l1 : Str) :
    (joinNl (bs ++ [ch :: l1])).getLast? = (ch :: l1).getLast? := by
  rcases eq_or_ne bs [] with hbs | hbs
  · subst hbs; rfl
  · rw [joinNl_concat bs hbs, List.getLast?_append]
    rw [show ('\n' :: ch :: l1 : Str).getLast? = (ch :: l1).getLast? from
      List.getLast?_cons_cons ..]
    cases hg : (ch :: l1 : Str).getLast? with
    | none => simp at hg
    | some a => rfl

theorem joinNl_concat_cons_ne_nil (bs : List Str) (ch : Char) (l1 : Str) :
    joinNl (bs ++ [ch :: l1]) ≠ [] := by
  rcases eq_or_ne bs [] with hbs | hbs
  · subst hbs; simp [joinNl]
  · rw [joinNl_concat bs hbs]
    simp

theorem padLast_joinNl : ∀ as : List Str, (∀ l ∈ as, '\n' ∉ l) →
    (if joinNl as ≠ [] ∧ (joinNl as).getLast? ≠ some '\n' then joinNl as ++ ['\n']
     else joinNl as) = joinNl (padLast as) := by
  intro as
  induction as using List.reverseRecOn with
  | nil => intro _; simp [padLast, joinNl]
  | append_singleton bs la _ =>
    intro hnl
    cases la with
    | nil =>
      rcases eq_or_ne bs [] with hbs | hbs
      · subst hbs
        rw [show joinNl ([] ++ [([] : Str)]) = [] from rfl]
        rw [if_neg (by simp), padLast, if_neg (by simp)]
        rfl
      · rw [joinNl_concat bs hbs []]
        rw [if_neg (by simp [List.getLast?_append]), padLast,
          if_neg (by simp [List.getLast?_concat])]
        rw [joinNl_concat bs hbs []]
    | cons ch l1 =>
      have hlast := getLast?_joinNl_concat_cons bs ch l1
      have hlne : (joinNl (bs ++ [ch :: l1])).getLast? ≠ some '\n' := by
        rw [hlast]
        exact getLast?_ne_nl (hnl (ch :: l1) (by simp))
      have hne := joinNl_concat_cons_ne_nil bs ch l1
      rw [if_pos ⟨hne, hlne⟩, padLast, if_pos ⟨by simp, by simp [List.getLast?_concat]⟩,
        joinNl_concat (bs ++ [ch :: l1]) (by simp) []]

theorem trailFix_joinNl : ∀ m : List Str, m ≠ [] → (∀ l ∈ m, '\n' ∉ l) →
    trailFix (joinNl m) = joinNl (padLast (popLastEmpty m)) := by
  intro m
  induction m using List.reverseRecOn with
  | nil => intro h; exact absurd rfl h
  | append_singleton bs la _ =>
    intro _ hnl
    cases la with
    | nil =>
      rcases eq_or_ne bs [] with hbs | hbs
      · subst hbs
        rw [show ([] : List Str) ++ [[]] = [[]] from rfl,
          show joinNl [([] : Str)] = [] from rfl,
          show popLastEmpty [([] : Str)] = [] from by simp [popLastEmpty]]
        rfl
      · rw [joinNl_concat bs hbs []]
        have hg : (joinNl bs ++ '\n' :: []).getLast? = some '\n' := List.getLast?_concat _
        simp only [trailFix, hg, if_pos rfl, List.dropLast_concat]
        rw [show popLastEmpty (bs ++ [([] : Str)]) = bs from by
          simp [popLastEmpty, List.getLast?_concat]]
        exact padLast_joinNl bs (fun l hl => hnl l (by simp [hl]))
    | cons ch l1 =>
      have hlast := getLast?_joinNl_concat_cons bs ch l1
      have hlne : (joinNl (bs ++ [ch :: l1])).getLast? ≠ some '\n' := by
        rw [hlast]
        exact getLast?_ne_nl (hnl (ch :: l1) (by simp))
      simp only [trailFix]
      rw [if_neg hlne]
      rw [show popLastEmpty (bs ++ [ch :: l1]) = bs ++ [ch :: l1] from by
        simp [popLastEmpty, List.getLast?_concat]]
      exact padLast_joinNl (bs ++ [ch :: l1]) hnl
theorem popLastEmpty_cons_cons (l1 l2 : Str) (rest : List Str) :
    popLastEmpty (l1 :: l2 :: rest) = l1 :: popLastEmpty (l2 :: rest) := by
  unfold popLastEmpty
  rw [List.getLast?_cons_cons]
  by_cases h : (l2 :: rest).getLast? = some []
  · rw [if_pos h, if_pos h]
    rfl
  · rw [if_neg h, if_neg h]

theorem popLastEmpty_cons_eq_nil {l2 : Str} {rest : List Str}
    (h : popLastEmpty (l2 :: rest) = []) : l2 = [] ∧ rest = [] := by
  by_cases hg : (l2 :: rest).getLast? = some []
  · rw [popLastEmpty, if_pos hg] at h
    cases rest with
    | nil => exact ⟨by simpa using hg, rfl⟩
    | cons r rs => simp at h
  · rw [popLastEmpty, if_neg hg] at h
    simp at h

theorem dropLeadingEmpties_cons_ne {l : Str} (hl : l ≠ []) (xs : List Str) :
    dropLeadingEmpties (l :: xs) = l :: xs := by
  cases l with
  | nil => exact absurd rfl hl
  | cons c cs => cases xs <;> rfl

theorem dropLeadingEmpties_ne_nil : ∀ {ls : List Str}, ls ≠ [] →
    dropLeadingEmpties ls ≠ [] := by
  intro ls
  induction ls with
  | nil => intro h; exact absurd rfl h
  | cons l xs ih =>
    intro _
    cases xs with
    | nil => rw [dropLeadingEmpties_singleton]; simp
    | cons l2 rest =>
      cases l with
      | nil => exact ih (by simp)
      | cons c cs => simp [dropLeadingEmpties_cons_ne]

theorem dropLeadingEmpties_subset : ∀ (ls : List Str), ∀ x ∈ dropLeadingEmpties ls, x ∈ ls := by
  intro ls
  induction ls with
  | nil => intro x hx; exact hx
  | cons l xs ih =>
    intro x hx
    cases xs with
    | nil => rw [dropLeadingEmpties_singleton] at hx; exact hx
    | cons l2 rest =>
      cases l with
      | nil =>
        have := ih x (by simpa using hx)
        simp [this]
      | cons c cs =>
        rw [dropLeadingEmpties_cons_ne (by simp)] at hx
        exact hx

theorem pad_pop_dle_comm : ∀ ls : List Str,
    joinNl (padLast (dropLeadingEmpties (popLastEmpty ls)))
      = joinNl (padLast (popLastEmpty (dropLeadingEmpties ls))) := by
  intro ls
  induction ls with
  | nil => rfl
  | cons l xs ih =>
    cases xs with
    | nil =>
      cases l with
      | nil => decide
      | cons c cs =>
        have hp : popLastEmpty [c :: cs] = [c :: cs] := by simp [popLastEmpty]
        rw [hp, dropLeadingEmpties_singleton, hp]
    | cons l2 rest =>
      rw [popLastEmpty_cons_cons]
      cases l with
      | cons ch l1 =>
        rw [dropLeadingEmpties_cons_ne (by simp),
          dropLeadingEmpties_cons_ne (by simp), popLastEmpty_cons_cons]
      | nil =>
        rcases hp : popLastEmpty (l2 :: rest) with _ | ⟨p, ps⟩
        · obtain ⟨hl2, hrest⟩ := popLastEmpty_cons_eq_nil hp
          subst hl2; subst hrest
          decide
        · rw [show dropLeadingEmpties (([] : Str) :: p :: ps)
                = dropLeadingEmpties (p :: ps) from rfl,
            ← hp, ih,
            show dropLeadingEmpties (([] : Str) :: l2 :: rest)
              = dropLeadingEmpties (l2 :: rest) from rfl]

/-- C2: the round-trip claim fails as stated — besides normalizing
terminators and the trailing newline, stringify(parse(text)) also deletes
leading blank lines: for the input LF-then-a, the allowed transformation
keeps the leading newline, but the code drops it. -/
theorem c2_roundtrip_counterexample :
    stringify (parse (strOf "\na")) = strOf "a\n" ∧
    claimNorm (strOf "\na") = strOf "\na\n" ∧
    stringify (parse (strOf "\na")) ≠ claimNorm (strOf "\na") := by
  exact ⟨by decide, by decide, by decide⟩

/-- C2 (amended): for every input text, stringify(parse(text)) equals the
text with every line terminator normalized to LF, all leading newlines
(blank lines) removed, and the trailing terminator normalized — one
trailing newline removed if present, then one appended when the remaining
text is nonempty and does not already end in a newline. -/
theorem c2_roundtrip_amended (s : Str) :
    stringify (parse s) = trailFix (dropLeadingNl (termNorm s)) := by
  have hls : splitLines s = splitNl (termNorm s) := splitLines_eq s
  have hne : splitNl (termNorm s) ≠ [] := splitNlGo_ne_nil (termNorm s) []
  have hnl : ∀ l ∈ splitNl (termNorm s), '\n' ∉ l :=
    noNl_splitNlGo (termNorm s) [] (by simp)
  have h1 : stringify (parse s)
      = joinNl (padLast (dropLeadingEmpties (popLastEmpty (splitNl (termNorm s))))) := by
    rw [stringify, parse, hls]
  rw [h1, pad_pop_dle_comm (splitNl (termNorm s)),
    ← trailFix_joinNl (dropLeadingEmpties (splitNl (termNorm s)))
      (dropLeadingEmpties_ne_nil hne)
      (fun l hl => hnl l (dropLeadingEmpties_subset (splitNl (termNorm s)) l hl)),
    ← dropLeadingNl_joinNl (splitNl (termNorm s)) hne hnl,
    joinNl_splitNl (termNorm s)]

/-! ### The set/get round trip (C10) -/

/-- Printable ASCII contents (code points 0x20 through 0x7e). -/
def printable (s : Str) : Prop := ∀ c ∈ s, 0x20 ≤ c.toNat ∧ c.toNat ≤ 0x7e

instance (s : Str) : Decidable (printable s) := List.decidableBAll _ s

/-- C10: the implicit set-then-get round trip fails as stated.  First, when
the Document ends in an unterminated continuation (final line `x=\`), the
appended rendered line is absorbed into the pending entry and get does not
find the key.  Second, with an empty key, a Document whose only separator
style is a bare space makes the rendered line ` x` parse as key `x`, so get
on the empty key fails. -/
theorem c10_set_get_counterexample :
    get (set ⟨[strOf "x=\\"]⟩ (strOf "a") (some (strOf "b"))) (strOf "a") = none ∧
    printable (strOf "a") ∧ printable (strOf "b") ∧
    get (set ⟨[strOf "a b"]⟩ [] (some (strOf "x"))) [] = none ∧
    printable [] ∧ printable (strOf "x") := by
  refine ⟨by decide, by decide, by decide, by decide, by decide, by decide⟩

theorem BS_eta {st : TkState} (h : BS st) :
    st = ⟨PState.start, -1, [], [], [], st.skipSpace, false⟩ := by
  obtain ⟨s, sa, k, sp, v, sk, e⟩ := st
  obtain ⟨h1, h2, h3, h4, h5, h6⟩ := h
  subst h1; subst h2; subst h3; subst h4; subst h5; subst h6
  rfl

theorem runLinesGo_append : ∀ (xs ys : List Str) (i : Int) (st : TkState),
    runLinesGo i st (xs ++ ys)
      = ((runLinesGo (i + xs.length) (runLinesGo i st xs).1 ys).1,
         (runLinesGo i st xs).2 ++ (runLinesGo (i + xs.length) (runLinesGo i st xs).1 ys).2) := by
  intro xs
  induction xs with
  | nil => intro ys i st; simp [runLinesGo]
  | cons x xs ih =>
    intro ys i st
    rw [List.cons_append, runLinesGo_cons, ih, runLinesGo_cons]
    have harith : i + 1 + (xs.length : Int) = i + ((x :: xs).length : Int) := by
      simp only [List.length_cons]
      push_cast
      ring
    rw [harith]
    simp

theorem runLinesGo_start_lb :
    ∀ (ls : List Str) (i : Int) (st : TkState) (b0 : Int), b0 ≤ i →
      (BS st ∨ (ContS st ∧ b0 ≤ st.start)) →
      ∀ e ∈ (runLinesGo i st ls).2, b0 ≤ e.start := by
  intro ls
  induction ls with
  | nil => intro i st b0 _ _ e he; simp [runLinesGo] at he
  | cons l rest ih =>
    intro i st b0 hbi hst e he
    rw [runLinesGo_cons] at he
    rcases hst with hst | ⟨hst, hlb⟩
    · rcases runLine_of_BS i st l hst with ⟨h1, h2 | ⟨h2, h3⟩⟩ | ⟨el, h1, h2, h3, _, _⟩
      · rw [h1] at he
        exact ih (i + 1) _ b0 (by omega) (Or.inl h2) e (by simpa using he)
      · rw [h1] at he
        exact ih (i + 1) _ b0 (by omega) (Or.inr ⟨h2, by omega⟩) e (by simpa using he)
      · rw [h1] at he
        rcases (by simpa using he :
            e = el ∨ e ∈ (runLinesGo (i + 1) (runLine i st l).1 rest).2) with he1 | he1
        · subst he1; omega
        · refine ih (i + 1) _ b0 (by omega) ?_ e he1
          rw [h2]
          exact Or.inl BS_initState
    · rcases runLine_of_ContS i st l hst with ⟨h1, h2, h3⟩ | ⟨el, h1, h2, h3, _, _⟩
      · rw [h1] at he
        exact ih (i + 1) _ b0 (by omega) (Or.inr ⟨h2, by omega⟩) e (by simpa using he)
      · rw [h1] at he
        rcases (by simpa using he :
            e = el ∨ e ∈ (runLinesGo (i + 1) (runLine i st l).1 rest).2) with he1 | he1
        · subst he1; omega
        · refine ih (i + 1) _ b0 (by omega) ?_ e he1
          rw [h2]
          exact Or.inl BS_initState

/-! ### Replay of a rendered line through the tokenizer -/

theorem key_step_plain {c : Char} (hc : ¬(c = ' ' ∨ c = '=' ∨ c = ':'))
    (hb : ¬(c = '\\')) (i sa : Int) (k0 : Str) :
    stepCh i ⟨PState.key, sa, k0, [], [], false, false⟩ c
      = ⟨PState.key, sa, k0 ++ [c], [], [], false, false⟩ := by
  simp [stepCh_key, hc, hb]

theorem key_step_esc1 (i sa : Int) (k0 : Str) :
    stepCh i ⟨PState.key, sa, k0, [], [], false, false⟩ '\\'
      = ⟨PState.key, sa, k0, [], [], false, true⟩ := by
  simp [stepCh_key]

theorem key_step_esc2 {c : Char} (hus : unescapeChar c = c) (i sa : Int) (k0 : Str) :
    stepCh i ⟨PState.key, sa, k0, [], [], false, true⟩ c
      = ⟨PState.key, sa, k0 ++ [c], [], [], false, false⟩ := by
  by_cases h1 : c = ' ' ∨ c = '=' ∨ c = ':'
  · simp [stepCh_key, h1]
  · by_cases h2 : c = '\\'
    · simp [stepCh_key, h1, h2]
    · simp [stepCh_key, h1, h2, hus]

theorem val_step_plain {c : Char} (hb : ¬(c = '\\')) (i sa : Int) (k sp v0 : Str) :
    stepCh i ⟨PState.value, sa, k, sp, v0, false, false⟩ c
      = ⟨PState.value, sa, k, sp, v0 ++ [c], false, false⟩ := by
  simp [stepCh_value, hb]

theorem val_step_esc1 (i sa : Int) (k sp v0 : Str) :
    stepCh i ⟨PState.value, sa, k, sp, v0, false, false⟩ '\\'
      = ⟨PState.value, sa, k, sp, v0, false, true⟩ := by
  simp [stepCh_value]

theorem val_step_esc2 {c : Char} (hus : unescapeChar c = c) (i sa : Int) (k sp v0 : Str) :
    stepCh i ⟨PState.value, sa, k, sp, v0, false, true⟩ c
      = ⟨PState.value, sa, k, sp, v0 ++ [c], false, false⟩ := by
  by_cases h2 : c = '\\'
  · simp [stepCh_value, h2]
  · simp [stepCh_value, h2, hus]

theorem runChars_cons (i : Int) (st : TkState) (c : Char) (cs : Str) :
    runChars i st (c :: cs) = runChars i (stepCh i st c) cs := rfl

theorem runChars_nil (i : Int) (st : TkState) : runChars i st [] = st := rfl

theorem runChars_append (i : Int) (st : TkState) (xs ys : Str) :
    runChars i st (xs ++ ys) = runChars i (runChars i st xs) ys := by
  simp [runChars, List.foldl_append]

theorem escChar_printable {c : Char} (h1 : 0x20 ≤ c.toNat) (h2 : c.toNat ≤ 0x7e)
    (b : Bool) :
    (c = ' ' ∧ escChar true true b c = ['\\', ' ']) ∨
    (c = '\\' ∧ escChar true true b c = ['\\', '\\']) ∨
    ((c = '=' ∨ c = ':' ∨ c = '#' ∨ c = '!') ∧ escChar true true b c = ['\\', c]) ∨
    (¬(c = ' ' ∨ c = '=' ∨ c = ':') ∧ ¬(c = '\\') ∧ ¬(c = '#') ∧ ¬(c = '!') ∧
      escChar true true b c = [c]) := by
  by_cases hsp : c = ' '
  · subst hsp; left; exact ⟨rfl, by simp [escChar]⟩
  · by_cases hbs : c = '\\'
    · subst hbs; right; left; exact ⟨rfl, by simp [escChar]⟩
    · by_cases hsc : c = '=' ∨ c = ':' ∨ c = '#' ∨ c = '!'
      · right; right; left
        refine ⟨hsc, ?_⟩
        rcases hsc with h | h | h | h <;> subst h <;> simp [escChar]
      · right; right; right
        have hff : c ≠ '\x0c' := ne_char_of_toNat (show c.toNat ≠ 12 by omega)
        have hnl : c ≠ '\n' := ne_char_of_toNat (show c.toNat ≠ 10 by omega)
        have hcr : c ≠ '\r' := ne_char_of_toNat (show c.toNat ≠ 13 by omega)
        have htb : c ≠ '\t' := ne_char_of_toNat (show c.toNat ≠ 9 by omega)
        refine ⟨?_, hbs, ?_, ?_, ?_⟩
        · intro h
          rcases h with h | h | h
          · exact hsp h
          · exact hsc (Or.inl h)
          · exact hsc (Or.inr (Or.inl h))
        · intro h; exact hsc (Or.inr (Or.inr (Or.inl h)))
        · intro h; exact hsc (Or.inr (Or.inr (Or.inr h)))
        · unfold escChar
          rw [if_neg hsp, if_neg hbs, if_neg hff, if_neg hnl, if_neg hcr, if_neg htb,
            if_neg hsc, if_neg (show ¬(true = true ∧ (c.toNat < 0x20 ∨ c.toNat > 0x7e)) by
              intro hx
              rcases hx.2 with hx2 | hx2 <;> omega)]

theorem keyPhase : ∀ (ks : Str), printable ks → ∀ (i sa : Int) (k0 : Str),
    runChars i ⟨PState.key, sa, k0, [], [], false, false⟩ (escGo true true false ks)
      = ⟨PState.key, sa, k0 ++ ks, [], [], false, false⟩ := by
  intro ks
  induction ks with
  | nil => intro _ i sa k0; simp [escGo, runChars]
  | cons c rest ih =>
    intro hp i sa k0
    have hc := hp c (List.mem_cons_self c rest)
    have hrest : printable rest := fun x hx => hp x (List.mem_cons_of_mem c hx)
    rw [show escGo true true false (c :: rest)
        = escChar true true false c ++ escGo true true false rest from rfl,
      runChars_append]
    rcases escChar_printable hc.1 hc.2 false with ⟨hcc, he⟩ | ⟨hcc, he⟩ | ⟨hcc, he⟩ |
      ⟨hc1, hc2, hc3, hc4, he⟩
    · subst hcc
      rw [he, runChars_cons, key_step_esc1, runChars_cons,
        key_step_esc2 (by decide), runChars_nil, ih hrest]
      simp
    · subst hcc
      rw [he, runChars_cons, key_step_esc1, runChars_cons,
        key_step_esc2 (by decide), runChars_nil, ih hrest]
      simp
    · have hus : unescapeChar c = c := by
        rcases hcc with h | h | h | h <;> subst h <;> decide
      rw [he, runChars_cons, key_step_esc1, runChars_cons, key_step_esc2 hus,
        runChars_nil, ih hrest]
      simp
    · rw [he, runChars_cons, key_step_plain hc1 hc2,
        runChars_nil, ih hrest]
      simp

theorem sep_step_space (i sa : Int) (k sp : Str) :
    stepCh i ⟨PState.separator, sa, k, sp, [], false, false⟩ ' '
      = ⟨PState.separator, sa, k, sp ++ [' '], [], false, false⟩ := by
  simp [stepCh_separator]

theorem sep_step_sepchar {c : Char} {sp : Str} (hc : c = '=' ∨ c = ':')
    (hany : sp.any (fun x => decide (x = '=' ∨ x = ':')) = false) (i sa : Int) (k : Str) :
    stepCh i ⟨PState.separator, sa, k, sp, [], false, false⟩ c
      = ⟨PState.separator, sa, k, sp ++ [c], [], false, false⟩ := by
  have hall2 : ∀ x ∈ sp, ¬x = '=' ∧ ¬x = ':' := by
    intro x hx
    have h3 := List.any_eq_false.mp hany x hx
    simpa [not_or] using h3
  rcases hc with h | h <;> subst h <;> (simp [stepCh_separator, hany]; try exact hall2)

theorem sep_step_to_value_plain {c : Char} (h1 : ¬(c = ' ')) (h2 : ¬(c = '=' ∨ c = ':'))
    (h3 : ¬(c = '\\')) (i sa : Int) (k sp : Str) :
    stepCh i ⟨PState.separator, sa, k, sp, [], false, false⟩ c
      = ⟨PState.value, sa, k, sp, [c], false, false⟩ := by
  simp [stepCh_separator, stepCh_value, h1, h2, h3]

theorem sep_step_to_value_esc (i sa : Int) (k sp : Str) :
    stepCh i ⟨PState.separator, sa, k, sp, [], false, false⟩ '\\'
      = ⟨PState.value, sa, k, sp, [], false, true⟩ := by
  simp [stepCh_separator, stepCh_value]

theorem sepPhase : ∀ (cs sp : Str),
    (∀ x ∈ sp ++ cs, x = ' ' ∨ x = '=' ∨ x = ':') →
    ((sp ++ cs).filter (fun c => decide (c ≠ ' '))).length ≤ 1 →
    ∀ (i sa : Int) (k : Str),
    runChars i ⟨PState.separator, sa, k, sp, [], false, false⟩ cs
      = ⟨PState.separator, sa, k, sp ++ cs, [], false, false⟩ := by
  intro cs
  induction cs with
  | nil => intro sp _ _ i sa k; rw [runChars_nil]; simp
  | cons c rest ih =>
    intro sp hall hcnt i sa k
    have hre : sp ++ c :: rest = (sp ++ [c]) ++ rest := by simp
    have hall2 : ∀ x ∈ (sp ++ [c]) ++ rest, x = ' ' ∨ x = '=' ∨ x = ':' := by
      rw [← hre]; exact hall
    have hcnt2 : (((sp ++ [c]) ++ rest).filter (fun c => decide (c ≠ ' '))).length ≤ 1 := by
      rw [← hre]; exact hcnt
    have hcm : c = ' ' ∨ c = '=' ∨ c = ':' := hall c (by simp)
    rw [runChars_cons]
    rcases hcm with hsp0 | hsep
    · subst hsp0
      rw [sep_step_space, ih (sp ++ [' ']) hall2 hcnt2 i sa k]
      simp
    · have hcns : ¬(c = ' ') := by rcases hsep with h | h <;> subst h <;> decide
      have hany : sp.any (fun x => decide (x = '=' ∨ x = ':')) = false := by
        rw [List.any_eq_false]
        intro x hx
        simp only [decide_eq_true_eq]
        intro hxor
        have hxns : ¬(x = ' ') := by rcases hxor with h | h <;> subst h <;> decide
        have hm1 : x ∈ sp.filter (fun c => decide (c ≠ ' ')) :=
          List.mem_filter.mpr ⟨hx, by simpa using hxns⟩
        have h1 : 1 ≤ (sp.filter (fun c => decide (c ≠ ' '))).length :=
          List.length_pos.mpr (List.ne_nil_of_mem hm1)
        have hm2 : c ∈ (c :: rest).filter (fun c => decide (c ≠ ' ')) :=
          List.mem_filter.mpr ⟨by simp, by simpa using hcns⟩
        have h2 : 1 ≤ ((c :: rest).filter (fun c => decide (c ≠ ' '))).length :=
          List.length_pos.mpr (List.ne_nil_of_mem hm2)
        rw [List.filter_append, List.length_append] at hcnt
        omega
      rw [sep_step_sepchar hsep hany, ih (sp ++ [c]) hall2 hcnt2 i sa k]
      simp

theorem escChar_val_printable {c : Char} (h1 : 0x20 ≤ c.toNat) (h2 : c.toNat ≤ 0x7e) :
    (c = '\\' ∧ escChar false true false c = ['\\', '\\']) ∨
    ((c = '=' ∨ c = ':' ∨ c = '#' ∨ c = '!') ∧ escChar false true false c = ['\\', c]) ∨
    (¬(c = '\\') ∧ escChar false true false c = [c]) := by
  by_cases hbs : c = '\\'
  · subst hbs; left; exact ⟨rfl, by simp [escChar]⟩
  · by_cases hsc : c = '=' ∨ c = ':' ∨ c = '#' ∨ c = '!'
    · right; left
      refine ⟨hsc, ?_⟩
      rcases hsc with h | h | h | h <;> subst h <;> simp [escChar]
    · right; right
      refine ⟨hbs, ?_⟩
      by_cases hsp : c = ' '
      · subst hsp; simp [escChar]
      · have hff : c ≠ '\x0c' := ne_char_of_toNat (show c.toNat ≠ 12 by omega)
        have hnl : c ≠ '\n' := ne_char_of_toNat (show c.toNat ≠ 10 by omega)
        have hcr : c ≠ '\r' := ne_char_of_toNat (show c.toNat ≠ 13 by omega)
        have htb : c ≠ '\t' := ne_char_of_toNat (show c.toNat ≠ 9 by omega)
        unfold escChar
        rw [if_neg hsp, if_neg hbs, if_neg hff, if_neg hnl, if_neg hcr, if_neg htb,
          if_neg hsc, if_neg (show ¬(true = true ∧ (c.toNat < 0x20 ∨ c.toNat > 0x7e)) by
            intro hx
            rcases hx.2 with hx2 | hx2 <;> omega)]

theorem valPhase : ∀ (vs : Str), printable vs → ∀ (i sa : Int) (k sp v0 : Str),
    runChars i ⟨PState.value, sa, k, sp, v0, false, false⟩ (escGo false true false vs)
      = ⟨PState.value, sa, k, sp, v0 ++ vs, false, false⟩ := by
  intro vs
  induction vs with
  | nil => intro _ i sa k sp v0; rw [show escGo false true false [] = [] from rfl, runChars_nil]; simp
  | cons c rest ih =>
    intro hp i sa k sp v0
    have hc := hp c (List.mem_cons_self c rest)
    have hrest : printable rest := fun x hx => hp x (List.mem_cons_of_mem c hx)
    rw [show escGo false true false (c :: rest)
        = escChar false true false c ++ escGo false true false rest from rfl,
      runChars_append]
    rcases escChar_val_printable hc.1 hc.2 with ⟨hcc, he⟩ | ⟨hcc, he⟩ | ⟨hc1, he⟩
    · subst hcc
      rw [he, runChars_cons, val_step_esc1, runChars_cons, val_step_esc2 (by decide),
        runChars_nil, ih hrest]
      simp
    · have hus : unescapeChar c = c := by
        rcases hcc with h | h | h | h <;> subst h <;> decide
      rw [he, runChars_cons, val_step_esc1, runChars_cons, val_step_esc2 hus,
        runChars_nil, ih hrest]
      simp
    · rw [he, runChars_cons, val_step_plain hc1, runChars_nil, ih hrest]
      simp

theorem start_step_plain {c : Char} (h1 : ¬(c = ' ')) (h2 : ¬(c = '#')) (h3 : ¬(c = '!'))
    (h4 : ¬(c = '=')) (h5 : ¬(c = ':')) (h6 : ¬(c = '\\')) (i : Int) (b : Bool) :
    stepCh i ⟨PState.start, -1, [], [], [], b, false⟩ c
      = ⟨PState.key, i, [c], [], [], false, false⟩ := by
  simp [stepCh_start, h1, h2, h3, h4, h5, h6]

theorem start_step_esc (i : Int) (b : Bool) :
    stepCh i ⟨PState.start, -1, [], [], [], b, false⟩ '\\'
      = ⟨PState.key, i, [], [], [], false, true⟩ := by
  simp [stepCh_start]

theorem entryKey (i : Int) (b : Bool) (kh : Char) (kt : Str) (hp : printable (kh :: kt)) :
    runChars i ⟨PState.start, -1, [], [], [], b, false⟩ (escapeKey (kh :: kt))
      = ⟨PState.key, i, kh :: kt, [], [], false, false⟩ := by
  have hc := hp kh (List.mem_cons_self kh kt)
  have hkt : printable kt := fun x hx => hp x (List.mem_cons_of_mem kh hx)
  rw [show escapeKey (kh :: kt)
      = escChar true true true kh ++ escGo true true false kt from rfl, runChars_append]
  rcases escChar_printable hc.1 hc.2 true with ⟨hcc, he⟩ | ⟨hcc, he⟩ | ⟨hcc, he⟩ |
    ⟨h1, h2, h3, h4, he⟩
  · subst hcc
    rw [he, runChars_cons, start_step_esc, runChars_cons, key_step_esc2 (by decide),
      runChars_nil, keyPhase kt hkt]
    simp
  · subst hcc
    rw [he, runChars_cons, start_step_esc, runChars_cons, key_step_esc2 (by decide),
      runChars_nil, keyPhase kt hkt]
    simp
  · have hus : unescapeChar kh = kh := by
      rcases hcc with h | h | h | h <;> subst h <;> decide
    rw [he, runChars_cons, start_step_esc, runChars_cons, key_step_esc2 hus,
      runChars_nil, keyPhase kt hkt]
    simp
  · have h1a : ¬(kh = ' ') := fun h => h1 (Or.inl h)
    have h1b : ¬(kh = '=') := fun h => h1 (Or.inr (Or.inl h))
    have h1c : ¬(kh = ':') := fun h => h1 (Or.inr (Or.inr h))
    rw [he, runChars_cons, start_step_plain h1a h3 h4 h1b h1c h2, runChars_nil,
      keyPhase kt hkt]
    simp

theorem key_to_sep_space (i sa : Int) (k : Str) :
    stepCh i ⟨PState.key, sa, k, [], [], false, false⟩ ' '
      = ⟨PState.separator, sa, k, [' '], [], false, false⟩ := by
  simp [stepCh_key]

theorem key_to_sep_sepchar {c : Char} (hc : c = '=' ∨ c = ':') (i sa : Int) (k : Str) :
    stepCh i ⟨PState.key, sa, k, [], [], false, false⟩ c
      = ⟨PState.separator, sa, k, [c], [], false, false⟩ := by
  rcases hc with h | h <;> subst h <;> simp [stepCh_key]

theorem sepFull (i sa : Int) (k sep : Str) (hs : sepOk sep) (hne : sep ≠ []) :
    runChars i ⟨PState.key, sa, k, [], [], false, false⟩ sep
      = ⟨PState.separator, sa, k, sep, [], false, false⟩ := by
  cases sep with
  | nil => exact absurd rfl hne
  | cons s0 srest =>
    have hs0 : s0 = ' ' ∨ s0 = '=' ∨ s0 = ':' := hs.1 s0 (by simp)
    have hall : ∀ x ∈ [s0] ++ srest, x = ' ' ∨ x = '=' ∨ x = ':' := by
      intro x hx
      exact hs.1 x (by simpa using hx)
    have hcnt : (([s0] ++ srest).filter (fun c => decide (c ≠ ' '))).length ≤ 1 := by
      simpa using hs.2
    rcases hs0 with h | h
    · subst h
      rw [runChars_cons, key_to_sep_space, sepPhase srest [' '] hall hcnt i sa k]
      simp
    · rw [runChars_cons, key_to_sep_sepchar h, sepPhase srest [s0] hall hcnt i sa k]
      simp

theorem escChar_val_first_eq (c : Char) :
    escChar false true true c = escChar true true true c := by
  simp [escChar]

theorem stepEol_separator (i sa : Int) (k sp v : Str) (sk e : Bool) :
    stepEol i ⟨PState.separator, sa, k, sp, v, sk, e⟩
      = (initState, some ⟨sa, i - sa + 1, sp, k, v⟩) := rfl

theorem stepEol_value_done (i sa : Int) (k sp v : Str) (sk : Bool) :
    stepEol i ⟨PState.value, sa, k, sp, v, sk, false⟩
      = (initState, some ⟨sa, i - sa + 1, sp, k, v⟩) := by
  simp [stepEol]

theorem runLine_rendered (i : Int) (b : Bool) (k : Str) (hk : k ≠ []) (hkp : printable k)
    (sep : Str) (hs : sepOk sep) (hsne : sep ≠ []) (v : Str) (hvp : printable v) :
    runLine i ⟨PState.start, -1, [], [], [], b, false⟩ (escapeKey k ++ sep ++ escapeValue v)
      = (initState, some ⟨i, 1, sep, k, v⟩) := by
  cases k with
  | nil => exact absurd rfl hk
  | cons kh kt =>
    rw [runLine, runChars_append, runChars_append, entryKey i b kh kt hkp,
      sepFull i i (kh :: kt) sep hs hsne]
    cases v with
    | nil =>
      rw [show escapeValue [] = [] from rfl, runChars_nil, stepEol_separator]
      have : i - i + 1 = 1 := by ring
      rw [this]
    | cons vh vt =>
      have hvc := hvp vh (List.mem_cons_self vh vt)
      have hvt : printable vt := fun x hx => hvp x (List.mem_cons_of_mem vh hx)
      rw [show escapeValue (vh :: vt)
          = escChar false true true vh ++ escGo false true false vt from rfl,
        runChars_append, escChar_val_first_eq]
      rcases escChar_printable hvc.1 hvc.2 true with ⟨hcc, he⟩ | ⟨hcc, he⟩ | ⟨hcc, he⟩ |
        ⟨h1, h2, h3, h4, he⟩
      · subst hcc
        rw [he, runChars_cons, sep_step_to_value_esc, runChars_cons,
          val_step_esc2 (by decide), runChars_nil, valPhase vt hvt, stepEol_value_done]
        have : i - i + 1 = 1 := by ring
        rw [this]
        simp
      · subst hcc
        rw [he, runChars_cons, sep_step_to_value_esc, runChars_cons,
          val_step_esc2 (by decide), runChars_nil, valPhase vt hvt, stepEol_value_done]
        have : i - i + 1 = 1 := by ring
        rw [this]
        simp
      · have hus : unescapeChar vh = vh := by
          rcases hcc with h | h | h | h <;> subst h <;> decide
        rw [he, runChars_cons, sep_step_to_value_esc, runChars_cons, val_step_esc2 hus,
          runChars_nil, valPhase vt hvt, stepEol_value_done]
        have : i - i + 1 = 1 := by ring
        rw [this]
        simp
      · have h1a : ¬(vh = ' ') := fun h => h1 (Or.inl h)
        have h1bc : ¬(vh = '=' ∨ vh = ':') := by
          intro h
          rcases h with h | h
          · exact h1 (Or.inr (Or.inl h))
          · exact h1 (Or.inr (Or.inr h))
        rw [he, runChars_cons, sep_step_to_value_plain h1a h1bc h2, runChars_nil,
          valPhase vt hvt, stepEol_value_done]
        have : i - i + 1 = 1 := by ring
        rw [this]
        simp

theorem findValueGo_cons_eq (k w : Str) (e : Entry) (es : List Entry) (h : e.key = k) :
    findValueGo k w (e :: es) = ⟨e.start, e.len, e.sep, some e.value⟩ := by
  simp only [findValueGo, if_pos h]

theorem findValueGo_cons_ne (k w : Str) (e : Entry) (es : List Entry) (h : ¬(e.key = k)) :
    findValueGo k w (e :: es) = findValueGo k (if e.sep ≠ [] then e.sep else w) es := by
  simp only [findValueGo, if_neg h]

theorem findValueGo_none_fields (k : Str) : ∀ (es : List Entry) (w : Str),
    (findValueGo k w es).value = none →
    (findValueGo k w es).start = -1 ∧ (findValueGo k w es).len = 0 := by
  intro es
  induction es with
  | nil => intro w _; exact ⟨rfl, rfl⟩
  | cons e es ih =>
    intro w hv
    by_cases h : e.key = k
    · rw [findValueGo_cons_eq k w e es h] at hv
      simp at hv
    · rw [findValueGo_cons_ne k w e es h] at hv ⊢
      exact ih _ hv

theorem findValueGo_sepOk (k : Str) : ∀ (es : List Entry) (w : Str), sepOk w →
    (∀ e ∈ es, sepOk e.sep) → sepOk (findValueGo k w es).sep := by
  intro es
  induction es with
  | nil => intro w hw _; exact hw
  | cons e es ih =>
    intro w hw hes
    by_cases h : e.key = k
    · rw [findValueGo_cons_eq k w e es h]
      exact hes e (by simp)
    · rw [findValueGo_cons_ne k w e es h]
      refine ih _ ?_ (fun x hx => hes x (by simp [hx]))
      split_ifs with h2
      · exact hes e (by simp)
      · exact hw

theorem take_len_add {α : Type} (p q : List α) (s : Nat) :
    (p ++ q).take (p.length + s) = p ++ q.take s := by
  induction p with
  | nil => simp
  | cons a p ih =>
    have h10 : (a :: p).length + s = (p.length + s) + 1 := by
      simp only [List.length_cons]
      omega
    rw [List.cons_append, h10, List.take_succ_cons, ih]
    rfl

theorem drop_len_add {α : Type} (p q : List α) (s : Nat) :
    (p ++ q).drop (p.length + s) = q.drop s := by
  induction p with
  | nil => simp
  | cons a p ih =>
    have h10 : (a :: p).length + s = (p.length + s) + 1 := by
      simp only [List.length_cons]
      omega
    rw [List.cons_append, h10, List.drop_succ_cons, ih]

theorem drop_len {α : Type} (p q : List α) : (p ++ q).drop p.length = q := by
  simp

theorem runLine_rendered_of_BS (i : Int) (st : TkState) (hst : BS st) (k : Str)
    (hk : k ≠ []) (hkp : printable k) (sep' : Str) (hs : sepOk sep') (hsne : sep' ≠ [])
    (v : Str) (hvp : printable v) :
    runLine i st (escapeKey k ++ sep' ++ escapeValue v)
      = (initState, some ⟨i, 1, sep', k, v⟩) := by
  rw [BS_eta hst]
  exact runLine_rendered i st.skipSpace k hk hkp sep' hs hsne v hvp

theorem rendered_scan_found (i : Int) (st : TkState) (hst : BS st) (k : Str)
    (hk : k ≠ []) (hkp : printable k) (sep' : Str) (hs : sepOk sep') (hsne : sep' ≠ [])
    (v : Str) (hvp : printable v) (q : List Str) (w2 : Str) :
    (findValueGo k w2 (runLinesGo i st
      ((escapeKey k ++ sep' ++ escapeValue v) :: q)).2).value = some v := by
  rw [runLinesGo_cons, runLine_rendered_of_BS i st hst k hk hkp sep' hs hsne v hvp]
  show (findValueGo k w2
    ((⟨i, 1, sep', k, v⟩ : Entry) :: (runLinesGo (i + 1) initState q).2)).value = some v
  rw [findValueGo_cons_eq k w2 ⟨i, 1, sep', k, v⟩ _ rfl]

theorem contBlock : ∀ (ls : List Str) (i : Int) (st : TkState), ContS st →
    ((runLinesGo i st ls).2 = [] ∧ ContS (runLinesGo i st ls).1) ∨
    (∃ (p q : List Str) (ye : Entry), ls = p ++ q ∧ 1 ≤ p.length ∧
      runLinesGo i st p = (initState, [ye]) ∧ ye.start = st.start ∧ sepOk ye.sep ∧
      ye.len = i + (p.length : Int) - st.start) := by
  intro ls
  induction ls with
  | nil => intro i st h; exact Or.inl ⟨rfl, h⟩
  | cons l ls ih =>
    intro i st h
    rcases runLine_of_ContS i st l h with ⟨h1, h2, h3⟩ | ⟨ye, h1, h2, h3, h4, h5⟩
    · rcases ih (i + 1) (runLine i st l).1 h2 with ⟨ha1, ha2⟩ |
        ⟨p, q, ye, hb1, hb2, hb3, hb4, hb5, hb6⟩
      · refine Or.inl ⟨?_, ?_⟩
        · rw [runLinesGo_cons, h1]
          simpa using ha1
        · rw [runLinesGo_cons]
          exact ha2
      · refine Or.inr ⟨l :: p, q, ye, by rw [hb1]; rfl, by simp, ?_, hb4.trans h3, hb5, ?_⟩
        · rw [runLinesGo_cons, h1, hb3]
          rfl
        · rw [hb6, h3]
          push_cast [List.length_cons]
          ring
    · refine Or.inr ⟨[l], ls, ye, rfl, by simp, ?_, h3, h5, ?_⟩
      · rw [runLinesGo_cons, h1, h2]
        rfl
      · rw [h4]
        have hl1 : (([l] : List Str).length : Int) = 1 := by simp
        rw [hl1]
        ring

theorem setGet_main : ∀ (n : Nat) (ls : List Str), ls.length ≤ n →
    ∀ (i : Int) (st : TkState), BS st →
    (runLinesGo i st ls).1.state = PState.start →
    ∀ (k sep' v w : Str), k ≠ [] → printable k → sepOk sep' → sep' ≠ [] → printable v →
    (((findValueGo k w (runLinesGo i st ls).2).value = none →
        ∀ w2 : Str, (findValueGo k w2 (runLinesGo i st
          (ls ++ [escapeKey k ++ sep' ++ escapeValue v])).2).value = some v) ∧
      (∀ u : Str, (findValueGo k w (runLinesGo i st ls).2).value = some u →
        ∃ s l : Nat, (findValueGo k w (runLinesGo i st ls).2).start = i + (s : Int) ∧
          (findValueGo k w (runLinesGo i st ls).2).len = (l : Int) ∧ 1 ≤ l ∧
          s + l ≤ ls.length ∧
          ∀ w2 : Str, (findValueGo k w2 (runLinesGo i st
            (ls.take s ++ [escapeKey k ++ sep' ++ escapeValue v]
              ++ ls.drop (s + l))).2).value = some v)) := by
  intro n
  induction n with
  | zero =>
    intro ls hlen i st hst hend k sep' v w hk hkp hs hsne hvp
    have hnil : ls = [] := List.length_eq_zero.mp (Nat.le_zero.mp hlen)
    subst hnil
    constructor
    · intro _ w2
      exact rendered_scan_found i st hst k hk hkp sep' hs hsne v hvp [] w2
    · intro u hu
      exact absurd hu (by simp [runLinesGo, findValueGo])
  | succ n ih =>
    intro ls hlen i st hst hend k sep' v w hk hkp hs hsne hvp
    cases ls with
    | nil =>
      constructor
      · intro _ w2
        exact rendered_scan_found i st hst k hk hkp sep' hs hsne v hvp [] w2
      · intro u hu
        exact absurd hu (by simp [runLinesGo, findValueGo])
    | cons l0 tail =>
      have htlen : tail.length ≤ n := by
        simp only [List.length_cons] at hlen
        omega
      rcases runLine_of_BS i st l0 hst with
        ⟨hnone, hbs | ⟨hcont, hcstart⟩⟩ | ⟨e, hye, hst1, hestart, helen, hesep⟩
      · have hents : (runLinesGo i st (l0 :: tail)).2
            = (runLinesGo (i + 1) (runLine i st l0).1 tail).2 := by
          rw [runLinesGo_cons, hnone]
          rfl
        have hend2 : (runLinesGo (i + 1) (runLine i st l0).1 tail).1.state
            = PState.start := by
          rw [runLinesGo_cons] at hend
          exact hend
        have hIH := ih tail htlen (i + 1) (runLine i st l0).1 hbs hend2
          k sep' v w hk hkp hs hsne hvp
        constructor
        · intro hvnone w2
          rw [hents] at hvnone
          have hents2 : (runLinesGo i st ((l0 :: tail)
              ++ [escapeKey k ++ sep' ++ escapeValue v])).2
              = (runLinesGo (i + 1) (runLine i st l0).1
                  (tail ++ [escapeKey k ++ sep' ++ escapeValue v])).2 := by
            rw [List.cons_append, runLinesGo_cons, hnone]
            rfl
          rw [hents2]
          exact hIH.1 hvnone w2
        · intro u hu
          rw [hents] at hu
          obtain ⟨s, l, hs1, hs2, hs3, hs4, hs5⟩ := hIH.2 u hu
          refine ⟨s + 1, l, ?_, ?_, hs3, ?_, ?_⟩
          · rw [hents, hs1]
            push_cast
            ring
          · rw [hents]
            exact hs2
          · simp only [List.length_cons]
            omega
          · intro w2
            have h10 : s + 1 + l = (s + l) + 1 := by omega
            have hlist : ((l0 :: tail).take (s + 1)
                ++ [escapeKey k ++ sep' ++ escapeValue v] ++ (l0 :: tail).drop (s + 1 + l))
                = l0 :: (tail.take s ++ [escapeKey k ++ sep' ++ escapeValue v]
                    ++ tail.drop (s + l)) := by
              rw [List.take_succ_cons, h10, List.drop_succ_cons]
              simp [List.cons_append]
            rw [hlist]
            have hents3 : (runLinesGo i st (l0 :: (tail.take s
                ++ [escapeKey k ++ sep' ++ escapeValue v] ++ tail.drop (s + l)))).2
                = (runLinesGo (i + 1) (runLine i st l0).1 (tail.take s
                    ++ [escapeKey k ++ sep' ++ escapeValue v] ++ tail.drop (s + l))).2 := by
              rw [runLinesGo_cons, hnone]
              rfl
            rw [hents3]
            exact hs5 w2
      · have hendT : (runLinesGo (i + 1) (runLine i st l0).1 tail).1.state
            = PState.start := by
          rw [runLinesGo_cons] at hend
          exact hend
        rcases contBlock tail (i + 1) (runLine i st l0).1 hcont with
          ⟨hq1, hq2⟩ | ⟨p, q, ye, hpq, hp1, hpscan, hyst, hysep, hylen⟩
        · exfalso
          rcases hq2.1 with hx | hx <;> rw [hendT] at hx <;> exact absurd hx (by decide)
        · have hystart : ye.start = i := by rw [hyst, hcstart]
          have hlenq : ye.len = (p.length : Int) + 1 := by
            rw [hylen, hcstart]
            ring
          have htail_ents : (runLinesGo (i + 1) (runLine i st l0).1 tail).2
              = ye :: (runLinesGo (i + 1 + (p.length : Int)) initState q).2 := by
            rw [hpq, runLinesGo_append, hpscan]
            rfl
          have hents : (runLinesGo i st (l0 :: tail)).2
              = ye :: (runLinesGo (i + 1 + (p.length : Int)) initState q).2 := by
            rw [runLinesGo_cons, hnone]
            exact htail_ents
          have hend2 : (runLinesGo (i + 1 + (p.length : Int)) initState q).1.state
              = PState.start := by
            rw [hpq, runLinesGo_append, hpscan] at hendT
            exact hendT
          have h9 : tail.length = p.length + q.length := by
            rw [hpq]
            exact List.length_append p q
          by_cases he : ye.key = k
          · constructor
            · intro hvnone w2
              rw [hents, findValueGo_cons_eq k w ye _ he] at hvnone
              simp at hvnone
            · intro u _
              refine ⟨0, p.length + 1, ?_, ?_, by omega, ?_, ?_⟩
              · rw [hents, findValueGo_cons_eq k w ye _ he]
                show ye.start = i + ((0 : Nat) : Int)
                rw [hystart]
                simp
              · rw [hents, findValueGo_cons_eq k w ye _ he]
                show ye.len = ((p.length + 1 : Nat) : Int)
                rw [hlenq]
                push_cast
                ring
              · simp only [List.length_cons]
                omega
              · intro w2
                have hdrop : (l0 :: tail).drop (0 + (p.length + 1)) = q := by
                  have h10 : 0 + (p.length + 1) = p.length + 1 := by omega
                  rw [h10, List.drop_succ_cons, hpq, drop_len]
                have hlist : ((l0 :: tail).take 0
                    ++ [escapeKey k ++ sep' ++ escapeValue v]
                    ++ (l0 :: tail).drop (0 + (p.length + 1)))
                    = (escapeKey k ++ sep' ++ escapeValue v) :: q := by
                  rw [hdrop]
                  rfl
                rw [hlist]
                exact rendered_scan_found i st hst k hk hkp sep' hs hsne v hvp q w2
          · have hqlen : q.length ≤ n := by omega
            have hIH := ih q hqlen (i + 1 + (p.length : Int)) initState BS_initState hend2
              k sep' v (if ye.sep ≠ [] then ye.sep else w) hk hkp hs hsne hvp
            constructor
            · intro hvnone w2
              rw [hents, findValueGo_cons_ne k w ye _ he] at hvnone
              have hents2 : (runLinesGo i st ((l0 :: tail)
                  ++ [escapeKey k ++ sep' ++ escapeValue v])).2
                  = ye :: (runLinesGo (i + 1 + (p.length : Int)) initState
                      (q ++ [escapeKey k ++ sep' ++ escapeValue v])).2 := by
                rw [List.cons_append, runLinesGo_cons, hnone, hpq,
                  List.append_assoc p q [escapeKey k ++ sep' ++ escapeValue v],
                  runLinesGo_append, hpscan]
                rfl
              rw [hents2, findValueGo_cons_ne k w2 ye _ he]
              exact hIH.1 hvnone _
            · intro u hu
              rw [hents, findValueGo_cons_ne k w ye _ he] at hu
              obtain ⟨s, l, hs1, hs2, hs3, hs4, hs5⟩ := hIH.2 u hu
              refine ⟨p.length + 1 + s, l, ?_, ?_, hs3, ?_, ?_⟩
              · rw [hents, findValueGo_cons_ne k w ye _ he, hs1]
                push_cast
                ring
              · rw [hents, findValueGo_cons_ne k w ye _ he]
                exact hs2
              · simp only [List.length_cons]
                omega
              · intro w2
                have htake : (l0 :: tail).take (p.length + 1 + s)
                    = l0 :: (p ++ q.take s) := by
                  have h10 : p.length + 1 + s = (p.length + s) + 1 := by omega
                  rw [h10, List.take_succ_cons, hpq, take_len_add]
                have hdrop : (l0 :: tail).drop (p.length + 1 + s + l)
                    = q.drop (s + l) := by
                  have h10 : p.length + 1 + s + l = (p.length + (s + l)) + 1 := by omega
                  rw [h10, List.drop_succ_cons, hpq, drop_len_add]
                have hlist : ((l0 :: tail).take (p.length + 1 + s)
                    ++ [escapeKey k ++ sep' ++ escapeValue v]
                    ++ (l0 :: tail).drop (p.length + 1 + s + l))
                    = l0 :: (p ++ (q.take s ++ [escapeKey k ++ sep' ++ escapeValue v]
                        ++ q.drop (s + l))) := by
                  rw [htake, hdrop]
                  simp [List.cons_append, List.append_assoc]
                rw [hlist]
                have hents3 : (runLinesGo i st (l0 :: (p
                    ++ (q.take s ++ [escapeKey k ++ sep' ++ escapeValue v]
                        ++ q.drop (s + l))))).2
                    = ye :: (runLinesGo (i + 1 + (p.length : Int)) initState
                        (q.take s ++ [escapeKey k ++ sep' ++ escapeValue v]
                          ++ q.drop (s + l))).2 := by
                  rw [runLinesGo_cons, hnone, runLinesGo_append, hpscan]
                  rfl
                rw [hents3, findValueGo_cons_ne k w2 ye _ he]
                exact hs5 _
      · have hents : (runLinesGo i st (l0 :: tail)).2
            = e :: (runLinesGo (i + 1) initState tail).2 := by
          rw [runLinesGo_cons, hye, hst1]
          rfl
        have hend2 : (runLinesGo (i + 1) initState tail).1.state = PState.start := by
          rw [runLinesGo_cons, hst1] at hend
          exact hend
        by_cases he : e.key = k
        · constructor
          · intro hvnone w2
            rw [hents, findValueGo_cons_eq k w e _ he] at hvnone
            simp at hvnone
          · intro u _
            refine ⟨0, 1, ?_, ?_, le_rfl, by simp, ?_⟩
            · rw [hents, findValueGo_cons_eq k w e _ he]
              show e.start = i + ((0 : Nat) : Int)
              rw [hestart]
              simp
            · rw [hents, findValueGo_cons_eq k w e _ he]
              show e.len = ((1 : Nat) : Int)
              rw [helen]
              simp
            · intro w2
              show (findValueGo k w2 (runLinesGo i st
                ((escapeKey k ++ sep' ++ escapeValue v) :: tail)).2).value = some v
              exact rendered_scan_found i st hst k hk hkp sep' hs hsne v hvp tail w2
        · have hIH := ih tail htlen (i + 1) initState BS_initState hend2
            k sep' v (if e.sep ≠ [] then e.sep else w) hk hkp hs hsne hvp
          constructor
          · intro hvnone w2
            rw [hents, findValueGo_cons_ne k w e _ he] at hvnone
            have hents2 : (runLinesGo i st ((l0 :: tail)
                ++ [escapeKey k ++ sep' ++ escapeValue v])).2
                = e :: (runLinesGo (i + 1) initState
                    (tail ++ [escapeKey k ++ sep' ++ escapeValue v])).2 := by
              rw [List.cons_append, runLinesGo_cons, hye, hst1]
              rfl
            rw [hents2, findValueGo_cons_ne k w2 e _ he]
            exact hIH.1 hvnone _
          · intro u hu
            rw [hents, findValueGo_cons_ne k w e _ he] at hu
            obtain ⟨s, l, hs1, hs2, hs3, hs4, hs5⟩ := hIH.2 u hu
            refine ⟨s + 1, l, ?_, ?_, hs3, ?_, ?_⟩
            · rw [hents, findValueGo_cons_ne k w e _ he, hs1]
              push_cast
              ring
            · rw [hents, findValueGo_cons_ne k w e _ he]
              exact hs2
            · simp only [List.length_cons]
              omega
            · intro w2
              have h10 : s + 1 + l = (s + l) + 1 := by omega
              have hlist : ((l0 :: tail).take (s + 1)
                  ++ [escapeKey k ++ sep' ++ escapeValue v]
                  ++ (l0 :: tail).drop (s + 1 + l))
                  = l0 :: (tail.take s ++ [escapeKey k ++ sep' ++ escapeValue v]
                      ++ tail.drop (s + l)) := by
                rw [List.take_succ_cons, h10, List.drop_succ_cons]
                simp [List.cons_append]
              rw [hlist]
              have hents3 : (runLinesGo i st (l0 :: (tail.take s
                  ++ [escapeKey k ++ sep' ++ escapeValue v] ++ tail.drop (s + l)))).2
                  = e :: (runLinesGo (i + 1) initState (tail.take s
                      ++ [escapeKey k ++ sep' ++ escapeValue v] ++ tail.drop (s + l))).2 := by
                rw [runLinesGo_cons, hye, hst1]
                rfl
              rw [hents3, findValueGo_cons_ne k w2 e _ he]
              exact hs5 _

/-- C10 (amended): the set/get round trip does hold once the two failure
modes are excluded: for every Document whose scan ends with the tokenizer
back in the start state (no pending continuation line), every nonempty
printable key and every printable value, get after set returns exactly the
value that was set. -/
theorem c10_set_get_amended (config : Properties) (k v : Str)
    (hk : k ≠ []) (hkp : printable k) (hvp : printable v)
    (hend : (runLinesGo 0 initState config.lines).1.state = PState.start) :
    get (set config k (some v)) k = some v := by
  obtain ⟨lines⟩ := config
  have hesep : ∀ e ∈ (runLinesGo 0 initState lines).2, sepOk e.sep :=
    (runLinesGo_facts lines 0 initState (Or.inl BS_initState)).1
  have hrsep : sepOk (findValue lines k).sep :=
    findValueGo_sepOk k (runLinesGo 0 initState lines).2 ['=']
      (sepOk_singleton_sep (Or.inl rfl)) hesep
  have hs' :
      sepOk (if (findValue lines k).sep = [] then ['='] else (findValue lines k).sep) := by
    split_ifs with h
    · exact sepOk_singleton_sep (Or.inl rfl)
    · exact hrsep
  have hsne' :
      (if (findValue lines k).sep = [] then ['='] else (findValue lines k).sep) ≠ [] := by
    split_ifs with h
    · simp
    · exact h
  have hmain := setGet_main lines.length lines le_rfl 0 initState BS_initState hend
    k (if (findValue lines k).sep = [] then ['='] else (findValue lines k).sep) v ['=']
    hk hkp hs' hsne' hvp
  cases hval : (findValueGo k ['='] (runLinesGo 0 initState lines).2).value with
  | none =>
    have h1 : (findValue lines k).start = -1 :=
      (findValueGo_none_fields k (runLinesGo 0 initState lines).2 ['='] hval).1
    have h2 : (findValue lines k).len = 0 :=
      (findValueGo_none_fields k (runLinesGo 0 initState lines).2 ['='] hval).2
    have hcond : ¬(0 ≤ (findValue lines k).start ∧ 0 < (findValue lines k).len) := by
      rw [h1, h2]
      omega
    have hset : set ⟨lines⟩ k (some v)
        = ⟨lines ++ [escapeKey k
            ++ (if (findValue lines k).sep = [] then ['='] else (findValue lines k).sep)
            ++ escapeValue v]⟩ := by
      unfold set
      simp only [if_neg hcond]
    rw [hset]
    exact hmain.1 hval ['=']
  | some u =>
    obtain ⟨s, l, hs1, hs2, hs3, hs4, hs5⟩ := hmain.2 u hval
    have h1 : (findValue lines k).start = 0 + (s : Int) := hs1
    have hstart : (findValue lines k).start = (s : Int) := by omega
    have hlen : (findValue lines k).len = (l : Int) := hs2
    have hcond : 0 ≤ (findValue lines k).start ∧ 0 < (findValue lines k).len := by
      rw [hstart, hlen]
      omega
    have ht1 : (findValue lines k).start.toNat = s := by
      rw [hstart]
      omega
    have ht2 : (findValue lines k).len.toNat = l := by
      rw [hlen]
      omega
    have hset : set ⟨lines⟩ k (some v)
        = ⟨lines.take s ++ [escapeKey k
            ++ (if (findValue lines k).sep = [] then ['='] else (findValue lines k).sep)
            ++ escapeValue v] ++ lines.drop (s + l)⟩ := by
      unfold set
      simp only [if_pos hcond]
      rw [ht1, ht2]
      rfl
    rw [hset]
    exact hs5 ['=']

/-- C10 witness: the amended round trip evaluated on the Document with the
single line `a=1`, setting key `b` to value `x y`. -/
theorem c10_set_get_amended_witness :
    (strOf "b" ≠ [] ∧ printable (strOf "b") ∧ printable (strOf "x y") ∧
      (runLinesGo 0 initState [strOf "a=1"]).1.state = PState.start) ∧
    get (set ⟨[strOf "a=1"]⟩ (strOf "b") (some (strOf "x y"))) (strOf "b")
      = some (strOf "x y") :=
  ⟨⟨by decide, by decide, by decide, by decide⟩,
   c10_set_get_amended ⟨[strOf "a=1"]⟩ (strOf "b") (strOf "x y")
     (by decide) (by decide) (by decide) (by decide)⟩

end Props
